import Mathlib

/-!
Verification of the `mqb` query-builder package (Go) against its
natural-language specification.

The development shallowly embeds the pure logic of the package:

* `createValidParametersMap` / `getFieldNameFromTag` (schema introspection,
  `utils.go`), with the hash-set iteration order of the `mapset` library
  made explicit as an `oracle : List String → List String` parameter
  (an admissible oracle is any permutation-producing enumeration, which is
  exactly the freedom a Go map iteration has);
* the `MongoQuery` registry state and its mutating operations
  `DisableParameters` / `AddOrOverwriteValidParameter`;
* `createQueryFilter`, `createFieldsMap`, `createSortFields`, `CreateQuery`
  (query construction from decoded query parameters);
* `calculateLastPage`, including a faithful model of the `float64`
  round-to-nearest-even arithmetic the Go code uses (`math.Ceil(float64(items)
  / float64(size))`), restricted to the normal (non-subnormal, non-overflow)
  range, which covers every value a `uint` input can produce.

HTTP request decoding is out of scope; a decoded query string is a
`List (String × List String)` from parameter name to raw values, with
distinct names (as produced by the Go `url.Values` type).
-/

deriving instance DecidableEq for Except

namespace Mqb

/-- Subset of the Go `reflect.Kind` enumeration that the package inspects. -/
inductive RKind : Type where
  | bool | int | int8 | int16 | int32 | int64
  | uint | uint8 | uint16 | uint32 | uint64
  | float32 | float64
  | string
  | structK | sliceK | ptrK | otherK
deriving DecidableEq

/-- Model of `contains` from `utils.go`: linear membership scan over a slice. -/
def contains (list : List String) (value : String) : Bool :=
  match list with
  | [] => false
  | v :: rest => if v = value then true else contains rest value

/-- Lookup in an association list, used to model reads of a Go `map`. -/
def alookup {β : Type} (k : String) : List (String × β) → Option β
  | [] => none
  | (k₂, v) :: rest => if k₂ = k then some v else alookup k rest

/-- Write `m[k] = v` on an association list modelling a Go `map`:
replaces the binding in place if the key is present, appends otherwise. -/
def ainsert {β : Type} (k : String) (v : β) : List (String × β) → List (String × β)
  | [] => [(k, v)]
  | (k₂, v₂) :: rest => if k₂ = k then (k, v) :: rest else (k₂, v₂) :: ainsert k v rest

/-- Model of `for k, v := range src { dst[k] = v }`: fold the entries of `src`
into `dst`.  Go iterates `src` in an unspecified order; since a Go map has
distinct keys the resulting map does not depend on that order, so the model
folds in list order. -/
def aunion {β : Type} (src dst : List (String × β)) : List (String × β) :=
  match src with
  | [] => dst
  | (k, v) :: rest => aunion rest (ainsert k v dst)

/-- Keys of an association list. -/
def akeys {β : Type} (m : List (String × β)) : List String := m.map Prod.fst

/-- Distinct elements of a list, first occurrence kept: the carrier of the
`mapset` set built by `newSetFromSlice` (`utils.go`).  Only the carrier is
meaningful; enumeration order of the Go set is modelled by the oracle. -/
def dedupKeep (seen : List String) : List String → List String
  | [] => []
  | x :: xs => if contains seen x then dedupKeep seen xs else x :: dedupKeep (x :: seen) xs

/-- Carrier of `newSetFromSlice(xs).Difference(newSetFromSlice(ys))`
(`getFieldNameFromTag`, `utils.go`): the distinct elements of `xs` that are
not in `ys`, listed here in first-occurrence order.  A concrete enumeration
of the Go set is an admissible oracle applied to this list. -/
def setDiff (xs ys : List String) : List String :=
  (dedupKeep [] xs).filter (fun t => ¬ contains ys t)

/-- An admissible hash-set enumeration: any function producing a permutation
of the underlying carrier list.  `mapset.Set.ToSlice` guarantees no more. -/
def Admissible (oracle : List String → List String) : Prop :=
  ∀ l : List String, List.Perm (oracle l) l

/-- Numeric value of a digit string (most significant digit first). -/
def digitsToNat (cs : List Char) : ℕ :=
  cs.foldl (fun acc c => acc * 10 + (c.toNat - 48)) 0

/-- Model of `strconv.ParseBool`, which accepts exactly these literals. -/
def goParseBool (s : String) : Except String Bool :=
  if contains ["1", "t", "T", "true", "TRUE", "True"] s then .ok true
  else if contains ["0", "f", "F", "false", "FALSE", "False"] s then .ok false
  else .error ("invalid syntax: " ++ s)

/-- Model of `strconv.ParseUint(s, 10, 0)` on a 64-bit platform: a nonempty
digit string, no sign permitted, value below 2^64 (larger values fail with
a range error, which the callers also treat as failure). -/
def goParseUint (s : String) : Except String ℕ :=
  let cs := s.toList
  if cs.isEmpty then .error ("invalid syntax: " ++ s)
  else if cs.all Char.isDigit then
    if digitsToNat cs < 2 ^ 64 then .ok (digitsToNat cs)
    else .error ("value out of range: " ++ s)
  else .error ("invalid syntax: " ++ s)

/-- Digit-and-range core of `strconv.ParseInt(s, 10, 0)` after the optional
sign has been split off. -/
def goAtoiCore (neg : Bool) (cs : List Char) (s : String) : Except String ℤ :=
  if cs.isEmpty then .error ("invalid syntax: " ++ s)
  else if cs.all Char.isDigit then
    if neg then
      if digitsToNat cs ≤ 2 ^ 63 then .ok (-(digitsToNat cs : ℤ))
      else .error ("value out of range: " ++ s)
    else
      if digitsToNat cs < 2 ^ 63 then .ok (digitsToNat cs : ℤ)
      else .error ("value out of range: " ++ s)
  else .error ("invalid syntax: " ++ s)

/-- Model of `strconv.Atoi` (= `ParseInt(s, 10, 0)`) on a 64-bit platform. -/
def goAtoi (s : String) : Except String ℤ :=
  match s.toList with
  | '+' :: rest => goAtoiCore false rest s
  | '-' :: rest => goAtoiCore true rest s
  | cs => goAtoiCore false cs s

/-- Round a rational to an integer, ties to even: the IEEE-754 default
rounding used by every float64 operation modelled below. -/
def roundHalfEvenZ (q : ℚ) : ℤ :=
  if q - (⌊q⌋ : ℚ) < 1 / 2 then ⌊q⌋
  else if (1 : ℚ) / 2 < q - (⌊q⌋ : ℚ) then ⌊q⌋ + 1
  else if Even ⌊q⌋ then ⌊q⌋ else ⌊q⌋ + 1

/-- Round a positive rational to the float64 grid: 53 significant bits,
unbounded exponent.  This agrees with IEEE-754 binary64
round-to-nearest-even for magnitudes in the normal range (between 2^-1022
and the overflow threshold); the claims proved here only round values
derived from 64-bit integers, which stay in that range. -/
def roundF64Pos (q : ℚ) : ℚ :=
  ((roundHalfEvenZ (q * (2 : ℚ) ^ ((52 : ℤ) - Int.log 2 q)) : ℤ) : ℚ)
    * (2 : ℚ) ^ (Int.log 2 q - (52 : ℤ))

/-- Round a rational to the float64 grid (sign-symmetric, as IEEE rounding
is). -/
def roundF64 (q : ℚ) : ℚ :=
  if q < 0 then -roundF64Pos (-q) else if q = 0 then 0 else roundF64Pos q

/-- Model of the Go conversion `float64(n)` for an unsigned integer. -/
def goFloatOfNat (n : ℕ) : ℚ := roundF64 (n : ℚ)

/-- Model of float64 division, which IEEE requires to be correctly rounded.
The divisor is kept away from zero by every claim proved about this. -/
def goDivF (x y : ℚ) : ℚ := roundF64 (x / y)

/-- Model of `calculateLastPage` (`mqb.go`):
`p.Last = uint(math.Ceil(float64(p.Items) / float64(p.Size)))`.
`math.Ceil` is exact on float64, and the conversion of its nonnegative
integral result to `uint` truncates, so both are the exact ceiling here. -/
def calculateLastPage (items size : ℕ) : ℕ :=
  (Int.ceil (goDivF (goFloatOfNat items) (goFloatOfNat size))).toNat

/-- Exact ceiling division on naturals, as the specification words the
last-page computation. -/
def ceilDivNat (a b : ℕ) : ℕ := (a + b - 1) / b

/-- Finite, infinite and invalid float64 results of parsing. -/
inductive GoFloat : Type where
  | finite (q : ℚ)
  | inf
  | neginf
  | nan
deriving DecidableEq

/-- Lower-case a character list (`strings.ToLower` on ASCII input). -/
def lowerChars (cs : List Char) : List Char := cs.map Char.toLower

/-- Split a mantissa at its first dot. -/
def splitDot : List Char → List Char × Option (List Char)
  | [] => ([], none)
  | c :: rest =>
    if c == '.' then ([], some rest)
    else
      let p := splitDot rest
      (c :: p.1, p.2)

/-- Split a number at its first exponent marker e or E. -/
def splitExp : List Char → List Char × Option (List Char)
  | [] => ([], none)
  | c :: rest =>
    if c == 'e' || c == 'E' then ([], some rest)
    else
      let p := splitExp rest
      (c :: p.1, p.2)

/-- Parse a decimal mantissa `digits[.digits]` into its digit value and its
count of fractional digits; at least one digit must be present. -/
def parseDecMantissa (cs : List Char) : Option (ℕ × ℕ) :=
  let p := splitDot cs
  match p.2 with
  | none =>
    if ¬ p.1.isEmpty ∧ p.1.all Char.isDigit then some (digitsToNat p.1, 0) else none
  | some fp =>
    if ¬ (p.1.isEmpty ∧ fp.isEmpty) ∧ p.1.all Char.isDigit ∧ fp.all Char.isDigit then
      some (digitsToNat (p.1 ++ fp), fp.length)
    else none

/-- Parse an exponent: optional sign, then a nonempty digit string. -/
def parseExpPart (cs : List Char) : Option ℤ :=
  match cs with
  | '+' :: rest =>
    if ¬ rest.isEmpty ∧ rest.all Char.isDigit then some (digitsToNat rest : ℤ) else none
  | '-' :: rest =>
    if ¬ rest.isEmpty ∧ rest.all Char.isDigit then some (-(digitsToNat rest : ℤ)) else none
  | rest =>
    if ¬ rest.isEmpty ∧ rest.all Char.isDigit then some (digitsToNat rest : ℤ) else none

/-- Values at or beyond this bound round to infinity, which `ParseFloat`
reports as a range error. -/
def maxF64Bound : ℚ := (2 : ℚ) ^ (1024 : ℕ)

/-- Assemble the float64 value of a parsed decimal `±m × 10^(ev - fracLen)`
and apply the overflow check of `ParseFloat`. -/
def mkFinite (neg : Bool) (m : ℕ) (fracLen : ℕ) (ev : ℤ) : Except String GoFloat :=
  let q : ℚ := (m : ℚ) * (10 : ℚ) ^ (ev - (fracLen : ℤ))
  let r := roundF64 q
  if maxF64Bound ≤ |r| then .error "value out of range"
  else .ok (.finite (if neg then -r else r))

/-- Model of `strconv.ParseFloat(s, 64)`.  Faithful for plain decimal and
scientific notation in the normal range.  Documented simplifications that
no claim depends on: hexadecimal float syntax and digit-separating
underscores are rejected rather than parsed, and decimals below the normal
range round on the unbounded-exponent grid instead of the subnormal grid. -/
def goParseFloat (s : String) : Except String GoFloat :=
  let cs := s.toList
  if lowerChars cs = "nan".toList then .ok .nan
  else
    let p : Bool × List Char :=
      match cs with
      | '+' :: r => (false, r)
      | '-' :: r => (true, r)
      | r => (false, r)
    if lowerChars p.2 = "inf".toList ∨ lowerChars p.2 = "infinity".toList then
      .ok (if p.1 then .neginf else .inf)
    else
      let me := splitExp p.2
      match parseDecMantissa me.1, me.2 with
      | some mf, none => mkFinite p.1 mf.1 mf.2 0
      | some mf, some ec =>
        match parseExpPart ec with
        | some ev => mkFinite p.1 mf.1 mf.2 ev
        | none => .error ("invalid syntax: " ++ s)
      | none, _ => .error ("invalid syntax: " ++ s)

/-- Hexadecimal digit test, as `encoding/hex` accepts them. -/
def isHexChar (c : Char) : Bool :=
  c.isDigit || ('a' ≤ c && c ≤ 'f') || ('A' ≤ c && c ≤ 'F')

/-- Model of `bson.IsObjectIdHex`: exactly 24 hexadecimal characters. -/
def isObjectIdHex (s : String) : Bool :=
  s.toList.length == 24 && s.toList.all isHexChar

/-- Model of `strings.Trim(v, "-")`: remove every leading and every
trailing dash character. -/
def goTrimDashes (v : String) : String :=
  String.mk (((v.toList.dropWhile (fun c => c == '-')).reverse.dropWhile
    (fun c => c == '-')).reverse)

/-- Unescape the body of a quoted tag value.  Go uses `strconv.Unquote`;
the repository tags contain no escape sequences, so only the generic
backslash escape is modelled (the escaped character is kept verbatim). -/
def unescapeChars : List Char → List Char
  | [] => []
  | '\\' :: c :: rest => c :: unescapeChars rest
  | c :: rest => c :: unescapeChars rest

/-- Scan a quoted tag value up to its closing quote, stepping over
backslash pairs as `reflect.StructTag.Lookup` does; returns the raw body
and the remaining characters, or nothing when the quote never closes. -/
def scanQuoted (acc : List Char) : List Char → Option (List Char × List Char)
  | [] => none
  | '"' :: rest => some (acc.reverse, rest)
  | '\\' :: c :: rest => scanQuoted (c :: '\\' :: acc) rest
  | c :: rest => scanQuoted (c :: acc) rest

/-- Characters `reflect.StructTag.Lookup` accepts in a tag key: anything
above the space byte except colon, quote and the delete byte. -/
def isTagNameChar (c : Char) : Bool :=
  (32 < c.toNat) && c != ':' && c != '"' && c.toNat != 127

/-- Key-value loop of `reflect.StructTag.Lookup`.  Each iteration consumes
at least one character, so a fuel of one more than the length suffices. -/
def tagLookupLoop (key : String) : ℕ → List Char → Option String
  | 0, _ => none
  | fuel + 1, cs₀ =>
    let cs := cs₀.dropWhile (fun c => c == ' ')
    if cs.isEmpty then none
    else
      let name := cs.takeWhile isTagNameChar
      let rest := cs.dropWhile isTagNameChar
      if name.isEmpty then none
      else
        match rest with
        | ':' :: '"' :: tail =>
          match scanQuoted [] tail with
          | none => none
          | some body =>
            if String.mk name = key then some (String.mk (unescapeChars body.1))
            else tagLookupLoop key fuel body.2
        | _ => none

/-- Model of `reflect.StructTag.Get`, which returns the empty string when
the key is absent or the tag is malformed. -/
def tagGet (tag key : String) : String :=
  (tagLookupLoop key (tag.toList.length + 1) tag.toList).getD ""

/-- Comma-splitting loop over characters. -/
def splitCommaChars (acc : List Char) : List Char → List String
  | [] => [String.mk acc.reverse]
  | c :: rest =>
    if c == ',' then String.mk acc.reverse :: splitCommaChars [] rest
    else splitCommaChars (c :: acc) rest

/-- Model of `strings.Split(s, ",")`: the empty string yields one empty
token, and separators at the ends yield empty tokens. -/
def splitComma (s : String) : List String := splitCommaChars [] s.toList

/-- Model of `strings.ToLower` on the ASCII strings that occur here. -/
def lowerStr (s : String) : String := String.mk (lowerChars s.toList)

/-- The fixed exclusion set of non-naming bson directives (`utils.go`). -/
def mongoTags : List String := ["omitempty", "minsize", "inline"]

/-- Model of `getFieldNameFromTag` (`utils.go`).  The source reads
`ToSlice()[0]` of a hash-set difference; `oracle` supplies that
enumeration. -/
def getFieldNameFromTag (oracle : List String → List String) (tag : String) : String :=
  let fieldName := tagGet tag "bson"
  let d1 := oracle (setDiff (splitComma fieldName) mongoTags)
  if 1 < fieldName.length ∧ ¬ d1.isEmpty then d1.headI
  else if tag.toList.contains ':' then ""
  else
    let d2 := oracle (setDiff (splitComma tag) mongoTags)
    if ¬ d2.isEmpty then d2.headI else ""

/-- A schema field list, as `createValidParametersMap` walks it by
reflection.  A Go struct type is encoded as the ordered list of its
fields, each carrying its declared name, its raw tag string, and its
type: a scalar kind, a slice with its element kind, or a nested struct
with its own field list. -/
inductive GoFields : Type where
  | nil : GoFields
  | consScalar (name tag : String) (kind : RKind) (rest : GoFields) : GoFields
  | consSlice (name tag : String) (elemKind : RKind) (rest : GoFields) : GoFields
  | consStruct (name tag : String) (sub : GoFields) (rest : GoFields) : GoFields
deriving DecidableEq

/-- The four fixed meta parameters (`utils.go`). -/
def validMetaParameters : List (String × RKind) :=
  [("page", .uint), ("limit", .uint), ("field", .string), ("sort", .string)]

/-- Final loop of `createValidParametersMap`: write each meta parameter
into the map unless its name is disabled. -/
def addMeta (disabled : List String) (m : List (String × RKind)) : List (String × RKind) :=
  validMetaParameters.foldl
    (fun acc kv => if contains disabled kv.1 then acc else ainsert kv.1 kv.2 acc) m

/-- Externally visible name of a field: the tag override when nonempty,
else the lower-cased field name (the mgo driver lower-cases names). -/
def fieldNameOf (oracle : List String → List String) (name tag : String) : String :=
  let t := getFieldNameFromTag oracle tag
  if t.length = 0 then lowerStr name else t

/-- Field loop of `createValidParametersMap`.  The nested-struct case of
the source calls `createValidParametersMap` recursively on the sub-struct
and merges the produced map, meta parameters included; that recursive call
appears here inlined as `addMeta disabled (cvpmFields oracle disabled sub [])`,
which is exactly its definition. -/
def cvpmFields (oracle : List String → List String) (disabled : List String) :
    GoFields → List (String × RKind) → List (String × RKind)
  | .nil, acc => acc
  | .consScalar name tag k rest, acc =>
    let fieldName := fieldNameOf oracle name tag
    cvpmFields oracle disabled rest
      (if contains disabled fieldName then acc else ainsert fieldName k acc)
  | .consSlice name tag ek rest, acc =>
    let fieldName := fieldNameOf oracle name tag
    cvpmFields oracle disabled rest
      (if contains disabled fieldName then acc else ainsert fieldName ek acc)
  | .consStruct _ _ sub rest, acc =>
    cvpmFields oracle disabled rest
      (aunion (addMeta disabled (cvpmFields oracle disabled sub [])) acc)

/-- Model of `createValidParametersMap` (`utils.go`). -/
def createValidParametersMap (oracle : List String → List String)
    (endPointStruct : GoFields) (disabledParameters : List String) :
    List (String × RKind) :=
  addMeta disabledParameters (cvpmFields oracle disabledParameters endPointStruct [])

/-- A tag both of whose possible hash-set differences have at most one
element, making `ToSlice()[0]` independent of enumeration order. -/
def tagUnambiguous (tag : String) : Bool :=
  decide ((setDiff (splitComma (tagGet tag "bson")) mongoTags).length ≤ 1) &&
  decide ((setDiff (splitComma tag) mongoTags).length ≤ 1)

/-- A schema all of whose field tags are unambiguous in the sense of
`tagUnambiguous`. -/
def unambiguousFields : GoFields → Bool
  | .nil => true
  | .consScalar _ tag _ rest => tagUnambiguous tag && unambiguousFields rest
  | .consSlice _ tag _ rest => tagUnambiguous tag && unambiguousFields rest
  | .consStruct _ _ sub rest => unambiguousFields sub && unambiguousFields rest

/-- The mutable registry state of a `MongoQuery` (the database handle and
the computed page are omitted; the page is modelled at the `CreateQuery`
call). -/
structure MQState where
  endPointStruct : GoFields
  disabledParameters : List String
  additionalSupportedParamters : List (String × RKind)
  supportedParameters : List (String × RKind)
deriving DecidableEq

/-- Model of `NewMongoQuery`. -/
def NewMongoQuery (oracle : List String → List String) (endPointStruct : GoFields) : MQState :=
  { endPointStruct := endPointStruct
    disabledParameters := []
    additionalSupportedParamters := []
    supportedParameters := createValidParametersMap oracle endPointStruct [] }

/-- Appending loop of `DisableParameters`: add each name to the disabled
slice unless it is already present. -/
def disabledUnion (paramters acc : List String) : List String :=
  match paramters with
  | [] => acc
  | p :: rest => disabledUnion rest (if contains acc p then acc else acc ++ [p])

/-- Model of `DisableParameters` (`mqb.go`).  Every call re-enumerates hash
sets when it rebuilds the map, so each call takes its own oracle. -/
def DisableParameters (oracle : List String → List String) (paramters : List String)
    (mq : MQState) : MQState :=
  let disabled := disabledUnion paramters mq.disabledParameters
  { mq with
    disabledParameters := disabled
    supportedParameters :=
      aunion mq.additionalSupportedParamters
        (createValidParametersMap oracle mq.endPointStruct disabled) }

/-- Model of `AddOrOverwriteValidParameter` (`mqb.go`): record the override
and re-apply the whole override table onto the current map. -/
def AddOrOverwriteValidParameter (name : String) (value : RKind) (mq : MQState) : MQState :=
  let additional := ainsert name value mq.additionalSupportedParamters
  { mq with
    additionalSupportedParamters := additional
    supportedParameters := aunion additional mq.supportedParameters }

/-- States reachable from `NewMongoQuery` by registry mutations, with a
fresh (arbitrary) hash-enumeration oracle at every rebuilding call. -/
inductive Reach (schema : GoFields) : MQState → Prop where
  | init (oracle) : Reach schema (NewMongoQuery oracle schema)
  | disable (oracle ps mq) : Reach schema mq → Reach schema (DisableParameters oracle ps mq)
  | addov (name value mq) : Reach schema mq →
      Reach schema (AddOrOverwriteValidParameter name value mq)

/-- Decoded query string: parameter name to ordered raw values, with the
distinct names a `url.Values` map has. -/
abbrev QueryParams := List (String × List String)

/-- Typed values a filter entry can hold. -/
inductive BsonValue : Type where
  | bool (b : Bool)
  | int (i : ℤ)
  | uint (n : ℕ)
  | float (f : GoFloat)
  | objectId (hex : String)
  | regex (pattern options : String)
  | str (s : String)
deriving DecidableEq

/-- A filter entry: a single parsed value, or the multi-membership
document the source writes as `map[string]interface{}{"$in": s}`. -/
inductive FilterValue : Type where
  | single (v : BsonValue)
  | inMap (vs : List BsonValue)
deriving DecidableEq

/-- Value loop of one `case` arm of `createQueryFilter`: parse each raw
value in order, stopping at the first failure, as the source loops do. -/
def mapME {α β : Type} (f : α → Except String β) : List α → Except String (List β)
  | [] => .ok []
  | x :: xs =>
    match f x with
    | .error e => .error e
    | .ok y =>
      match mapME f xs with
      | .error e => .error e
      | .ok ys => .ok (y :: ys)

/-- Parser a non-string scalar arm of the `switch kind` applies to one raw
value: bool, the signed integer kinds, the unsigned integer kinds and the
float kinds each share one strconv call in the source. -/
def parseScalarOne (kind : RKind) (v : String) : Except String BsonValue :=
  match kind with
  | .bool => (goParseBool v).map BsonValue.bool
  | .int | .int8 | .int16 | .int32 | .int64 => (goAtoi v).map BsonValue.int
  | .uint | .uint8 | .uint16 | .uint32 | .uint64 => (goParseUint v).map BsonValue.uint
  | .float32 | .float64 => (goParseFloat v).map BsonValue.float
  | _ => .error "reflection kind is not supported"

/-- The `switch kind` of `createQueryFilter`: build the slice `s` of parsed
values for one parameter.  The string arm distinguishes a single value
(ObjectId literal or regex pattern) from several values (ObjectId literals
or plain strings); the default arm rejects the kind. -/
def parseValues (kind : RKind) (parameterValues : List String) : Except String (List BsonValue) :=
  match kind with
  | .bool | .int | .int8 | .int16 | .int32 | .int64
  | .uint | .uint8 | .uint16 | .uint32 | .uint64
  | .float32 | .float64 => mapME (parseScalarOne kind) parameterValues
  | .string =>
    match parameterValues with
    | [v] => .ok [if isObjectIdHex v then .objectId v else .regex v ""]
    | vs => .ok (vs.map (fun v => if isObjectIdHex v then .objectId v else .str v))
  | _ => .error "reflection kind is not supported"

/-- Result combination at the bottom of the `createQueryFilter` loop: a
one-element slice becomes the value itself, anything else becomes the
multi-membership document. -/
def combineValues (s : List BsonValue) : FilterValue :=
  match s with
  | [v] => .single v
  | _ => .inMap s

/-- Parameter loop of `createQueryFilter`: reject unregistered names, skip
meta parameters, otherwise parse and combine. -/
def cqfLoop (supported : List (String × RKind)) :
    QueryParams → List (String × FilterValue) → Except String (List (String × FilterValue))
  | [], filter => .ok filter
  | (parameterName, parameterValues) :: rest, filter =>
    match alookup parameterName supported with
    | none => .error ("parameter is not supported: " ++ parameterName)
    | some kind =>
      if (alookup parameterName validMetaParameters).isSome then
        cqfLoop supported rest filter
      else
        match parseValues kind parameterValues with
        | .error e => .error e
        | .ok s => cqfLoop supported rest (ainsert parameterName (combineValues s) filter)

/-- Model of `createQueryFilter` (`mqb.go`).  The Go loop iterates the
query map in unspecified order; list order is used here.  On success the
produced filter does not depend on that order (names are distinct), and on
failure the source returns a nil map, modelled by `Except.error`. -/
def createQueryFilter (supported : List (String × RKind)) (query : QueryParams) :
    Except String (List (String × FilterValue)) :=
  cqfLoop supported query []

/-- Value loop of `createFieldsMap`: every projection name must be a
registry key; writing 1 into a map collapses duplicates. -/
def cfmLoop (supported : List (String × RKind)) :
    List String → List (String × ℕ) → Except String (List (String × ℕ))
  | [], fields => .ok fields
  | v :: rest, fields =>
    if (alookup v supported).isSome then cfmLoop supported rest (ainsert v 1 fields)
    else .error ("unsupported field value: " ++ v)

/-- Model of `createFieldsMap` (`mqb.go`). -/
def createFieldsMap (supported : List (String × RKind)) (query : QueryParams) :
    Except String (List (String × ℕ)) :=
  match alookup "field" query with
  | none => .ok []
  | some vs => cfmLoop supported vs []

/-- Value loop of `createSortFields`: validate `strings.Trim(v, "-")`
against the registry, keep the original token. -/
def csfLoop (supported : List (String × RKind)) :
    List String → List String → Except String (List String)
  | [], sortFields => .ok sortFields
  | v :: rest, sortFields =>
    if (alookup (goTrimDashes v) supported).isSome then
      csfLoop supported rest (sortFields ++ [v])
    else .error ("unsupported field value: " ++ v)

/-- Model of `createSortFields` (`mqb.go`). -/
def createSortFields (supported : List (String × RKind)) (query : QueryParams) :
    Except String (List String) :=
  match alookup "sort" query with
  | none => .ok []
  | some vs => csfLoop supported vs []

/-- Modelled from the spec: `CreateQuery` calls a three-argument
`getUint(req, param, defaultValue)` whose body is not among the provided
sources (the sources only contain an older two-argument variant).  Its
parsing of the first raw value follows that variant
(`strconv.ParseUint(v[0], 10, 0)` with failure text "invalid value for ..."),
and the default-on-absence behavior follows the spec: limit defaults to
the configured default size when absent, page defaults to 1 when absent.
An empty value slice cannot arise from a decoded query string; the Go
index expression would panic there. -/
def getUint (query : QueryParams) (param : String) (defaultValue : ℕ) : Except String ℕ :=
  match alookup param query with
  | some (v :: _) =>
    match goParseUint v with
    | .ok n => .ok n
    | .error _ => .error ("invalid value for " ++ v)
  | some [] => .error "index out of range"
  | none => .ok defaultValue

/-- The portable query descriptor `CreateQuery` assembles (collection
handle and database connection omitted).  `select` is `none` exactly when
the source passes the nil map of a failed `createFieldsMap` call to
`q.Select`. -/
structure QueryDescriptor where
  filter : List (String × FilterValue)
  select : Option (List (String × ℕ))
  sort : List String
  limit : ℤ
  skip : ℤ
deriving DecidableEq

/-- Model of 64-bit unsigned multiplication on a 64-bit platform: the Go
`uint` product wraps modulo 2^64. -/
def mulUint64 (a b : ℕ) : ℕ := (a * b) % 2 ^ 64

/-- Model of the Go conversion `int(u)` of a 64-bit unsigned value:
two-complement reinterpretation, so values at or above 2^63 come out
negative. -/
def intOfUint64 (n : ℕ) : ℤ := if n < 2 ^ 63 then (n : ℤ) else (n : ℤ) - 2 ^ 64

/-- Model of `CreateQuery` (`mqb.go`).  Two source details reproduced:
the line `selectFields, err := mq.createFieldsMap(req)` never checks this
`err` (the next call overwrites it), so a failed field projection is
silently dropped; and `q.Skip(int((mq.page.Current - 1) * mq.page.Size))`
computes in 64-bit `uint` arithmetic, so the product wraps modulo 2^64
before the `int` reinterpretation (the subtraction cannot wrap because
`current = 0` has already been rejected), and `q.Limit(int(mq.page.Size))`
likewise reinterprets the size. -/
def CreateQuery (supported : List (String × RKind)) (defaultPageSize : ℕ)
    (query : QueryParams) : Except String QueryDescriptor :=
  match createQueryFilter supported query with
  | .error e => .error e
  | .ok filterMap =>
    let selectFields : Option (List (String × ℕ)) :=
      match createFieldsMap supported query with
      | .ok f => some f
      | .error _ => none
    match createSortFields supported query with
    | .error e => .error e
    | .ok sortFields =>
      match getUint query "limit" defaultPageSize with
      | .error e => .error e
      | .ok size =>
        match getUint query "page" 1 with
        | .error e => .error e
        | .ok current =>
          if current = 0 then .error "page cannot be 0"
          else .ok { filter := filterMap, select := selectFields, sort := sortFields,
                     limit := intOfUint64 size,
                     skip := intOfUint64 (mulUint64 (current - 1) size) }

/-- Sort-token normalization as claim C5 words it: strip one single
optional leading descending marker.  Compare `goTrimDashes`, which the
source actually applies. -/
def stripOneLeadingDash (v : String) : String :=
  match v.toList with
  | '-' :: rest => String.mk rest
  | _ => v

/-- Identity enumeration of a hash-set carrier. -/
def idOracle : List String → List String := fun l => l

/-- Reversed enumeration of a hash-set carrier. -/
def revOracle : List String → List String := fun l => l.reverse

/-- A concrete registry used by witnesses: two schema fields plus the four
meta parameters. -/
def exRegistry : List (String × RKind) :=
  [("age", .int), ("name", .string),
   ("page", .uint), ("limit", .uint), ("field", .string), ("sort", .string)]

/-- A schema whose single field carries the ambiguous tag `bson:"a,b"`:
two tokens survive the exclusion set, so the override depends on the
enumeration order. -/
def exSchemaAmbig : GoFields :=
  .consScalar "A" "bson:\"a,b\"" .string .nil

/-- A small unambiguous schema: `Name string` with tag `bson:"fullname"`
and `Age int` without a tag. -/
def exSchemaPlain : GoFields :=
  .consScalar "Name" "bson:\"fullname\"" .string (.consScalar "Age" "" .int .nil)

/-- The non-string scalar kinds of claim C1: the kinds whose
`createQueryFilter` arm parses values with one strconv call. -/
def nonStringScalar (kind : RKind) : Bool :=
  match kind with
  | .bool | .int | .int8 | .int16 | .int32 | .int64
  | .uint | .uint8 | .uint16 | .uint32 | .uint64
  | .float32 | .float64 => true
  | _ => false

/-- Distinct keys, the invariant every Go map has. -/
def NodupKeys {β : Type} (m : List (String × β)) : Prop := (akeys m).Nodup

/-- Whether a fallible computation succeeded. -/
def exceptIsOk {ε α : Type} : Except ε α → Bool
  | .ok _ => true
  | .error _ => false

/-! ### Association-list lemmas -/

theorem alookup_ainsert_self {β : Type} (k : String) (v : β) (m : List (String × β)) :
    alookup k (ainsert k v m) = some v := by
  induction m with
  | nil => simp [ainsert, alookup]
  | cons p rest ih =>
    obtain ⟨k₂, v₂⟩ := p
    by_cases h : k₂ = k
    · subst h; simp [ainsert, alookup]
    · simp [ainsert, alookup, h, ih]

theorem alookup_ainsert_ne {β : Type} {k k₂ : String} (h : k₂ ≠ k) (v : β)
    (m : List (String × β)) : alookup k (ainsert k₂ v m) = alookup k m := by
  induction m with
  | nil => simp [ainsert, alookup, h]
  | cons p rest ih =>
    obtain ⟨k₃, v₃⟩ := p
    by_cases h₂ : k₃ = k₂
    · subst h₂
      have h₃ : ¬ k₃ = k := h
      simp [ainsert, alookup, h₃]
    · by_cases h₃ : k₃ = k
      · subst h₃
        simp [ainsert, alookup, h₂]
      · simp [ainsert, alookup, h₂, h₃, ih]

theorem alookup_eq_none_iff {β : Type} (k : String) (m : List (String × β)) :
    alookup k m = none ↔ ∀ p ∈ m, p.1 ≠ k := by
  induction m with
  | nil => simp [alookup]
  | cons p rest ih =>
    obtain ⟨k₂, v₂⟩ := p
    by_cases h : k₂ = k <;> simp [alookup, h, ih]

theorem mem_akeys_of_mem {β : Type} {k : String} {v : β} {m : List (String × β)}
    (h : (k, v) ∈ m) : k ∈ akeys m :=
  List.mem_map_of_mem Prod.fst h

theorem alookup_eq_none_of_not_mem {β : Type} {k : String} {m : List (String × β)}
    (h : k ∉ akeys m) : alookup k m = none := by
  rw [alookup_eq_none_iff]
  intro p hp hk
  apply h
  have hp₂ : p.1 ∈ akeys m := List.mem_map_of_mem Prod.fst hp
  rwa [hk] at hp₂

theorem nodupKeys_cons_iff {β : Type} (k : String) (v : β) (m : List (String × β)) :
    NodupKeys ((k, v) :: m) ↔ k ∉ akeys m ∧ NodupKeys m := by
  unfold NodupKeys
  rw [show akeys ((k, v) :: m) = k :: akeys m from rfl, List.nodup_cons]

theorem alookup_of_mem_nodup {β : Type} {k : String} {v : β} {m : List (String × β)}
    (hm : (k, v) ∈ m) (hnd : NodupKeys m) : alookup k m = some v := by
  induction m with
  | nil => cases hm
  | cons p rest ih =>
    obtain ⟨k₂, v₂⟩ := p
    obtain ⟨hk₂, hrest⟩ := (nodupKeys_cons_iff k₂ v₂ rest).mp hnd
    rcases List.mem_cons.mp hm with heq | hmem
    · injection heq with hk hv
      subst hk; subst hv
      simp [alookup]
    · have hne : k₂ ≠ k := by
        intro hkk
        exact hk₂ (hkk ▸ mem_akeys_of_mem hmem)
      simp [alookup, hne]
      exact ih hmem hrest

theorem ainsert_eq_self {β : Type} {k : String} {v : β} {m : List (String × β)}
    (h : alookup k m = some v) : ainsert k v m = m := by
  induction m with
  | nil => simp [alookup] at h
  | cons p rest ih =>
    obtain ⟨k₂, v₂⟩ := p
    by_cases hk : k₂ = k
    · subst hk
      simp [alookup] at h
      simp [ainsert, h]
    · simp [alookup, hk] at h
      simp [ainsert, hk, ih h]

theorem ainsert_idem {β : Type} (k : String) (v : β) (m : List (String × β)) :
    ainsert k v (ainsert k v m) = ainsert k v m :=
  ainsert_eq_self (alookup_ainsert_self k v m)

theorem mem_akeys_ainsert {β : Type} (x k : String) (v : β) (m : List (String × β)) :
    x ∈ akeys (ainsert k v m) ↔ x = k ∨ x ∈ akeys m := by
  induction m with
  | nil => simp [ainsert, akeys]
  | cons p rest ih =>
    obtain ⟨k₂, v₂⟩ := p
    by_cases h : k₂ = k
    · subst h
      simp [ainsert, akeys]
      try tauto
    · simp [ainsert, akeys, h] at ih ⊢
      constructor
      · rintro (h₂ | h₂)
        · tauto
        · rcases ih.mp h₂ with h₃ | h₃ <;> tauto
      · rintro (h₂ | h₂ | h₂)
        · exact Or.inr (ih.mpr (Or.inl h₂))
        · tauto
        · exact Or.inr (ih.mpr (Or.inr h₂))

theorem nodupKeys_ainsert {β : Type} {m : List (String × β)} (k : String) (v : β)
    (hnd : NodupKeys m) : NodupKeys (ainsert k v m) := by
  induction m with
  | nil => simp [ainsert, NodupKeys, akeys]
  | cons p rest ih =>
    obtain ⟨k₂, v₂⟩ := p
    obtain ⟨hk₂, hrest⟩ := (nodupKeys_cons_iff k₂ v₂ rest).mp hnd
    by_cases h : k₂ = k
    · subst h
      rw [show ainsert k₂ v ((k₂, v₂) :: rest) = (k₂, v) :: rest from by simp [ainsert]]
      exact (nodupKeys_cons_iff _ _ _).mpr ⟨hk₂, hrest⟩
    · rw [show ainsert k v ((k₂, v₂) :: rest) = (k₂, v₂) :: ainsert k v rest from by
        simp [ainsert, h]]
      refine (nodupKeys_cons_iff _ _ _).mpr ⟨?_, ih hrest⟩
      intro hmem
      rcases (mem_akeys_ainsert k₂ k v rest).mp hmem with h₂ | h₂
      · exact h h₂
      · exact hk₂ h₂

theorem alookup_aunion_of_none {β : Type} {k : String} {src : List (String × β)}
    (dst : List (String × β)) (h : alookup k src = none) :
    alookup k (aunion src dst) = alookup k dst := by
  induction src generalizing dst with
  | nil => simp [aunion]
  | cons p rest ih =>
    obtain ⟨k₂, v₂⟩ := p
    have h₂ : ¬ k₂ = k ∧ alookup k rest = none := by
      by_cases hk : k₂ = k
      · simp [alookup, hk] at h
      · simp [alookup, hk] at h
        exact ⟨hk, h⟩
    rw [show aunion ((k₂, v₂) :: rest) dst = aunion rest (ainsert k₂ v₂ dst) from rfl]
    rw [ih _ h₂.2, alookup_ainsert_ne h₂.1]

theorem alookup_aunion_of_some {β : Type} {k : String} {v : β} {src : List (String × β)}
    (dst : List (String × β)) (hnd : NodupKeys src) (h : alookup k src = some v) :
    alookup k (aunion src dst) = some v := by
  induction src generalizing dst with
  | nil => simp [alookup] at h
  | cons p rest ih =>
    obtain ⟨k₂, v₂⟩ := p
    obtain ⟨hk₂, hrest⟩ := (nodupKeys_cons_iff k₂ v₂ rest).mp hnd
    rw [show aunion ((k₂, v₂) :: rest) dst = aunion rest (ainsert k₂ v₂ dst) from rfl]
    by_cases hk : k₂ = k
    · subst hk
      simp [alookup] at h
      rw [alookup_aunion_of_none _ (alookup_eq_none_of_not_mem hk₂),
        alookup_ainsert_self, h]
    · simp [alookup, hk] at h
      exact ih _ hrest h

theorem aunion_eq_of_lookup {β : Type} {src dst : List (String × β)}
    (h : ∀ p ∈ src, alookup p.1 dst = some p.2) : aunion src dst = dst := by
  induction src with
  | nil => rfl
  | cons p rest ih =>
    obtain ⟨k, v⟩ := p
    rw [show aunion ((k, v) :: rest) dst = aunion rest (ainsert k v dst) from rfl]
    rw [ainsert_eq_self (h (k, v) (List.mem_cons_self _ _))]
    exact ih (fun p hp => h p (List.mem_cons_of_mem _ hp))

/-! ### Filter-builder lemmas -/

theorem mapME_ok_length {α β : Type} {f : α → Except String β} {xs : List α} {ys : List β}
    (h : mapME f xs = .ok ys) : ys.length = xs.length := by
  induction xs generalizing ys with
  | nil =>
    simp [mapME] at h
    subst h
    rfl
  | cons x rest ih =>
    unfold mapME at h
    cases hx : f x with
    | error e => simp [hx] at h
    | ok y =>
      cases hr : mapME f rest with
      | error e => simp [hx, hr] at h
      | ok ys₂ =>
        simp only [hx, hr] at h
        injection h with h₂
        subst h₂
        simp [ih hr]

theorem mapME_ok_get {α β : Type} {f : α → Except String β} {xs : List α} {ys : List β}
    (h : mapME f xs = .ok ys) (i : ℕ) (hx : i < xs.length) (hy : i < ys.length) :
    f (xs.get ⟨i, hx⟩) = .ok (ys.get ⟨i, hy⟩) := by
  induction xs generalizing ys i with
  | nil => cases hx
  | cons x rest ih =>
    unfold mapME at h
    cases hx₂ : f x with
    | error e => simp [hx₂] at h
    | ok y =>
      cases hr : mapME f rest with
      | error e => simp [hx₂, hr] at h
      | ok ys₂ =>
        simp only [hx₂, hr] at h
        injection h with h₂
        subst h₂
        cases i with
        | zero => simpa using hx₂
        | succ j =>
          have hx₃ : j < rest.length := Nat.lt_of_succ_lt_succ hx
          have hy₃ : j < ys₂.length := Nat.lt_of_succ_lt_succ hy
          simpa using ih hr j hx₃ hy₃

theorem parseValues_eq_mapME {kind : RKind} (h : nonStringScalar kind = true)
    (vs : List String) : parseValues kind vs = mapME (parseScalarOne kind) vs := by
  cases kind <;> simp_all [nonStringScalar, parseValues]

theorem cqfLoop_ok_preserve {supported : List (String × RKind)} {q : QueryParams}
    {acc filter : List (String × FilterValue)} {k : String}
    (hok : cqfLoop supported q acc = .ok filter) (hk : ∀ p ∈ q, p.1 ≠ k) :
    alookup k filter = alookup k acc := by
  induction q generalizing acc with
  | nil =>
    simp [cqfLoop] at hok
    rw [hok]
  | cons p rest ih =>
    obtain ⟨name, values⟩ := p
    have hk₀ : name ≠ k := hk (name, values) (List.mem_cons_self _ _)
    have hk₂ : ∀ p ∈ rest, p.1 ≠ k := fun p hp => hk p (List.mem_cons_of_mem _ hp)
    unfold cqfLoop at hok
    cases hsup : alookup name supported with
    | none => simp [hsup] at hok
    | some kind =>
      simp only [hsup] at hok
      by_cases hmeta : (alookup name validMetaParameters).isSome
      · rw [if_pos hmeta] at hok
        exact ih hok hk₂
      · rw [if_neg hmeta] at hok
        cases hpv : parseValues kind values with
        | error e => simp [hpv] at hok
        | ok s =>
          simp only [hpv] at hok
          rw [ih hok hk₂, alookup_ainsert_ne hk₀]

theorem cqfLoop_ok_lookup {supported : List (String × RKind)} {q : QueryParams}
    {acc filter : List (String × FilterValue)} {name : String} {values : List String}
    {kind : RKind}
    (hok : cqfLoop supported q acc = .ok filter)
    (hmem : (name, values) ∈ q) (hnd : (akeys q).Nodup)
    (hkind : alookup name supported = some kind)
    (hmeta : alookup name validMetaParameters = none) :
    ∃ s, parseValues kind values = .ok s ∧ alookup name filter = some (combineValues s) := by
  induction q generalizing acc with
  | nil => cases hmem
  | cons p rest ih =>
    obtain ⟨n₀, v₀⟩ := p
    have hnd₂ : (akeys rest).Nodup := by
      rw [show akeys ((n₀, v₀) :: rest) = n₀ :: akeys rest from rfl, List.nodup_cons] at hnd
      exact hnd.2
    have hn₀ : n₀ ∉ akeys rest := by
      rw [show akeys ((n₀, v₀) :: rest) = n₀ :: akeys rest from rfl, List.nodup_cons] at hnd
      exact hnd.1
    rcases List.mem_cons.mp hmem with heq | hmem₂
    · injection heq with hn hv
      subst hn; subst hv
      unfold cqfLoop at hok
      simp only [hkind] at hok
      have hmeta₂ : ¬ (alookup name validMetaParameters).isSome = true := by simp [hmeta]
      rw [if_neg hmeta₂] at hok
      cases hpv : parseValues kind values with
      | error e => simp [hpv] at hok
      | ok s =>
        simp only [hpv] at hok
        refine ⟨s, rfl, ?_⟩
        have hrest : ∀ p ∈ rest, p.1 ≠ name := by
          intro p hp hpk
          exact hn₀ (hpk ▸ List.mem_map_of_mem Prod.fst hp)
        rw [cqfLoop_ok_preserve hok hrest, alookup_ainsert_self]
    · unfold cqfLoop at hok
      cases hsup : alookup n₀ supported with
      | none => simp [hsup] at hok
      | some k₀ =>
        simp only [hsup] at hok
        by_cases hm : (alookup n₀ validMetaParameters).isSome
        · rw [if_pos hm] at hok
          exact ih hok hmem₂ hnd₂
        · rw [if_neg hm] at hok
          cases hpv : parseValues k₀ v₀ with
          | error e => simp [hpv] at hok
          | ok s =>
            simp only [hpv] at hok
            exact ih hok hmem₂ hnd₂

theorem cqfLoop_error_of_unsupported {supported : List (String × RKind)} {q : QueryParams}
    {name : String} {values : List String}
    (hmem : (name, values) ∈ q) (hsup : alookup name supported = none)
    (acc : List (String × FilterValue)) :
    ∃ e, cqfLoop supported q acc = .error e := by
  induction q generalizing acc with
  | nil => cases hmem
  | cons p rest ih =>
    obtain ⟨n₀, v₀⟩ := p
    rcases List.mem_cons.mp hmem with heq | hmem₂
    · injection heq with hn hv
      subst hn
      refine ⟨"parameter is not supported: " ++ name, ?_⟩
      unfold cqfLoop
      simp only [hsup]
    · unfold cqfLoop
      cases hs : alookup n₀ supported with
      | none => exact ⟨_, rfl⟩
      | some k₀ =>
        simp only
        by_cases hm : (alookup n₀ validMetaParameters).isSome
        · rw [if_pos hm]
          exact ih hmem₂ acc
        · rw [if_neg hm]
          cases hpv : parseValues k₀ v₀ with
          | error e => exact ⟨e, rfl⟩
          | ok s => exact ih hmem₂ _

/-! ### Claims C1, C2, C3 -/

/-- Claim C1: for every request parameter registered with a non-string
scalar kind and not a meta parameter, a successful `createQueryFilter`
maps the name to the single parsed value when it carries one raw value,
and to a `$in` membership term over the parsed values, in input order with
duplicates preserved (no de-duplication), when it carries more than one. -/
theorem claim_C1_scalar_filter_terms
    (supported : List (String × RKind)) (query : QueryParams)
    (name : String) (values : List String) (kind : RKind)
    (filter : List (String × FilterValue))
    (hok : createQueryFilter supported query = .ok filter)
    (hmem : (name, values) ∈ query)
    (hnd : (akeys query).Nodup)
    (hkind : alookup name supported = some kind)
    (hscalar : nonStringScalar kind = true)
    (hmeta : alookup name validMetaParameters = none) :
    ∃ s : List BsonValue,
      mapME (parseScalarOne kind) values = .ok s ∧
      s.length = values.length ∧
      (∀ (i : ℕ) (hiv : i < values.length) (his : i < s.length),
        parseScalarOne kind (values.get ⟨i, hiv⟩) = .ok (s.get ⟨i, his⟩)) ∧
      alookup name filter = some (combineValues s) ∧
      (∀ pv, s = [pv] → combineValues s = .single pv) ∧
      (1 < s.length → combineValues s = .inMap s) := by
  obtain ⟨s, hs, hlook⟩ := cqfLoop_ok_lookup hok hmem hnd hkind hmeta
  rw [parseValues_eq_mapME hscalar] at hs
  refine ⟨s, hs, mapME_ok_length hs, fun i hiv his => mapME_ok_get hs i hiv his, hlook, ?_, ?_⟩
  · intro pv hpv
    subst hpv
    rfl
  · intro hlen
    cases s with
    | nil => rfl
    | cons a t =>
      cases t with
      | nil => simp at hlen
      | cons b t₂ => rfl

/-- Concrete witness for C1: `age=1&age=2&age=3` with `age` of signed
integer kind yields the ordered `$in` term over 1, 2, 3. -/
theorem claim_C1_witness :
    alookup "age" [("age", FilterValue.inMap [.int 1, .int 2, .int 3])]
      = some (FilterValue.inMap [.int 1, .int 2, .int 3]) := by
  obtain ⟨s, hs, hlen, hget, hlook, hsing, hin⟩ :=
    claim_C1_scalar_filter_terms exRegistry [("age", ["1", "2", "3"])] "age"
      ["1", "2", "3"] .int [("age", FilterValue.inMap [.int 1, .int 2, .int 3])]
      (by decide) (by decide) (by decide) (by decide) (by decide) (by decide)
  have hs₂ : mapME (parseScalarOne .int) ["1", "2", "3"]
      = .ok [BsonValue.int 1, BsonValue.int 2, BsonValue.int 3] := by decide
  rw [hs₂] at hs
  injection hs with hs₃
  subst hs₃
  exact hlook

/-- Claim C2: for a registered string-kind non-meta parameter, a value of
24 hexadecimal characters becomes an ObjectId literal; a single
non-identifier value becomes an unanchored case-sensitive regex term, not
literal equality; with several values the non-identifier ones enter the
membership term as plain strings. -/
theorem claim_C2_string_filter_terms
    (supported : List (String × RKind)) (query : QueryParams)
    (name : String) (values : List String)
    (filter : List (String × FilterValue))
    (hok : createQueryFilter supported query = .ok filter)
    (hmem : (name, values) ∈ query)
    (hnd : (akeys query).Nodup)
    (hkind : alookup name supported = some .string)
    (hmeta : alookup name validMetaParameters = none) :
    (∀ v, values = [v] → isObjectIdHex v = true →
      alookup name filter = some (.single (.objectId v))) ∧
    (∀ v, values = [v] → isObjectIdHex v = false →
      alookup name filter = some (.single (.regex v ""))) ∧
    (1 < values.length →
      alookup name filter = some (.inMap (values.map
        (fun v => if isObjectIdHex v then .objectId v else .str v)))) := by
  obtain ⟨s, hs, hlook⟩ := cqfLoop_ok_lookup hok hmem hnd hkind hmeta
  refine ⟨?_, ?_, ?_⟩
  · intro v hv hhex
    subst hv
    rw [show parseValues RKind.string [v] = .ok [.objectId v] from by
      simp [parseValues, hhex]] at hs
    injection hs with h
    subst h
    exact hlook
  · intro v hv hhex
    subst hv
    rw [show parseValues RKind.string [v] = .ok [.regex v ""] from by
      simp [parseValues, hhex]] at hs
    injection hs with h
    subst h
    exact hlook
  · intro hlen
    cases values with
    | nil => simp at hlen
    | cons a t =>
      cases t with
      | nil => simp at hlen
      | cons b t₂ =>
        rw [show parseValues RKind.string (a :: b :: t₂)
            = .ok ((a :: b :: t₂).map
              (fun v => if isObjectIdHex v then .objectId v else .str v)) from rfl] at hs
        injection hs with h
        subst h
        exact hlook

/-- Concrete witness for C2: the single value `peter` becomes a regex
(substring) term, and a 24-hex value becomes an ObjectId literal. -/
theorem claim_C2_witness :
    alookup "name" [("name", FilterValue.single (.regex "peter" ""))]
      = some (FilterValue.single (.regex "peter" "")) := by
  obtain ⟨h1, h2, h3⟩ :=
    claim_C2_string_filter_terms exRegistry [("name", ["peter"])] "name" ["peter"]
      [("name", FilterValue.single (.regex "peter" ""))]
      (by decide) (by decide) (by decide) (by decide) (by decide)
  exact h2 "peter" rfl (by decide)

/-- Claim C3: a query containing a name absent from the registry makes
`createQueryFilter` fail, whatever the raw values of that name are, and
an error result carries no partial filter. -/
theorem claim_C3_unsupported_parameter
    (supported : List (String × RKind)) (query : QueryParams)
    (name : String) (values : List String)
    (hmem : (name, values) ∈ query)
    (hsup : alookup name supported = none) :
    (∃ e, createQueryFilter supported query = .error e) ∧
    ∀ filter, createQueryFilter supported query ≠ .ok filter := by
  obtain ⟨e, he⟩ := cqfLoop_error_of_unsupported hmem hsup []
  refine ⟨⟨e, he⟩, ?_⟩
  intro filter hf
  rw [createQueryFilter] at hf
  rw [he] at hf
  cases hf

/-- Concrete witness for C3: an unregistered name fails even though its
value would not parse under any kind, and no filter is produced. -/
theorem claim_C3_witness :
    exceptIsOk (createQueryFilter exRegistry [("foo", ["x"])]) = false := by
  obtain ⟨⟨e, he⟩, -⟩ :=
    claim_C3_unsupported_parameter exRegistry [("foo", ["x"])] "foo" ["x"]
      (by decide) (by decide)
  rw [he]
  rfl

/-! ### Claims C4, C5, C6 -/

/-- Claim C4 (code bug): `createFieldsMap` rejects the unregistered
projection name `foo` with an unsupported-field error and collapses
duplicate projection names, but `CreateQuery` never checks that error (the
`err` of its `createFieldsMap` call is overwritten unread), so query
construction succeeds with a nil projection instead of failing. -/
theorem claim_C4_field_error_dropped :
    createFieldsMap exRegistry [("field", ["foo"])]
      = .error "unsupported field value: foo" ∧
    CreateQuery exRegistry 20 [("field", ["foo"])]
      = .ok { filter := [], select := none, sort := [], limit := 20, skip := 0 } ∧
    createFieldsMap exRegistry [("field", ["name", "age", "name"])]
      = .ok [("name", 1), ("age", 1)] := by
  refine ⟨by decide, by decide, by decide⟩

/-- Loop of `createSortFields` when every trimmed token is registered:
the original tokens are returned in order. -/
theorem csfLoop_ok_of_all {supported : List (String × RKind)} {vs : List String}
    (h : ∀ v ∈ vs, (alookup (goTrimDashes v) supported).isSome) (acc : List String) :
    csfLoop supported vs acc = .ok (acc ++ vs) := by
  induction vs generalizing acc with
  | nil => simp [csfLoop]
  | cons v rest ih =>
    have hv := h v (List.mem_cons_self _ _)
    unfold csfLoop
    rw [if_pos hv, ih (fun w hw => h w (List.mem_cons_of_mem _ hw)) (acc ++ [v])]
    simp

/-- Loop of `createSortFields` when some trimmed token is unregistered:
the whole call fails. -/
theorem csfLoop_error_of_bad {supported : List (String × RKind)} {vs : List String}
    {v : String} (hmem : v ∈ vs) (hbad : alookup (goTrimDashes v) supported = none)
    (acc : List String) : ∃ e, csfLoop supported vs acc = .error e := by
  induction vs generalizing acc with
  | nil => cases hmem
  | cons w rest ih =>
    rcases List.mem_cons.mp hmem with heq | hmem₂
    · subst heq
      unfold csfLoop
      rw [if_neg (by simp [hbad])]
      exact ⟨_, rfl⟩
    · unfold csfLoop
      by_cases hw : (alookup (goTrimDashes w) supported).isSome
      · rw [if_pos hw]
        exact ih hmem₂ _
      · rw [if_neg hw]
        exact ⟨_, rfl⟩

/-- Claim C5 (amended): `createSortFields` validates each token with all
leading and trailing dashes removed (`strings.Trim(v, "-")`, not a single
leading marker), fails the whole call when any trimmed remainder is
unregistered, and otherwise returns the original marker-included tokens in
input order with duplicates preserved. -/
theorem claim_C5_sort_fields
    (supported : List (String × RKind)) (query : QueryParams) (vs : List String)
    (hvs : alookup "sort" query = some vs) :
    ((∀ v ∈ vs, (alookup (goTrimDashes v) supported).isSome) →
      createSortFields supported query = .ok vs) ∧
    (∀ v ∈ vs, alookup (goTrimDashes v) supported = none →
      ∃ e, createSortFields supported query = .error e) := by
  constructor
  · intro hall
    unfold createSortFields
    simp only [hvs]
    simpa using csfLoop_ok_of_all hall []
  · intro v hmem hbad
    obtain ⟨e, he⟩ := csfLoop_error_of_bad hmem hbad []
    unfold createSortFields
    simp only [hvs]
    exact ⟨e, he⟩

/-- Counterexample to C5 as stated: with `age` registered, the token
`--age` has single-leading-dash remainder `-age`, which is unregistered,
so the claim as stated demands failure of the whole call; the source trims
every dash from both ends, validates `age`, and succeeds with the token
kept. -/
theorem claim_C5_counterexample :
    createSortFields exRegistry [("sort", ["--age"])] = .ok ["--age"] ∧
    alookup (stripOneLeadingDash "--age") exRegistry = none ∧
    goTrimDashes "--age" = "age" := by
  refine ⟨by decide, by decide, by decide⟩

/-- Concrete witness for C5 (amended): `sort=name&sort=-age` with both
names registered preserves order and markers. -/
theorem claim_C5_witness :
    createSortFields exRegistry [("sort", ["name", "-age"])] = .ok ["name", "-age"] := by
  exact (claim_C5_sort_fields exRegistry [("sort", ["name", "-age"])]
    ["name", "-age"] (by decide)).1 (by decide)

/-- Claim C6 (code bug): `limit=0` is accepted — the guard only covers
`page` — so the constructed query has page size 0, and a later `Run` call
would evaluate the last-page division with size 0. -/
theorem claim_C6_limit_zero_accepted :
    getUint [("limit", ["0"])] "limit" 20 = .ok 0 ∧
    CreateQuery exRegistry 20 [("limit", ["0"])]
      = .ok { filter := [], select := some [], sort := [], limit := 0, skip := 0 } := by
  refine ⟨by decide, by decide⟩

/-! ### Claim C7 -/

/-- Successful `CreateQuery` runs decompose into their stages. -/
theorem CreateQuery_ok_elim {supported : List (String × RKind)} {defaultPageSize : ℕ}
    {query : QueryParams} {d : QueryDescriptor}
    (h : CreateQuery supported defaultPageSize query = .ok d) :
    ∃ filterMap sortFields size current,
      createQueryFilter supported query = .ok filterMap ∧
      createSortFields supported query = .ok sortFields ∧
      getUint query "limit" defaultPageSize = .ok size ∧
      getUint query "page" 1 = .ok current ∧
      current ≠ 0 ∧
      d.limit = intOfUint64 size ∧
      d.skip = intOfUint64 (mulUint64 (current - 1) size) := by
  unfold CreateQuery at h
  cases h₁ : createQueryFilter supported query with
  | error e => simp [h₁] at h
  | ok fm =>
    simp only [h₁] at h
    cases h₂ : createSortFields supported query with
    | error e => simp [h₂] at h
    | ok sf =>
      simp only [h₂] at h
      cases h₃ : getUint query "limit" defaultPageSize with
      | error e => simp [h₃] at h
      | ok size =>
        simp only [h₃] at h
        cases h₄ : getUint query "page" 1 with
        | error e => simp [h₄] at h
        | ok current =>
          simp only [h₄] at h
          by_cases h₅ : current = 0
          · rw [if_pos h₅] at h
            exact absurd h (by simp)
          · rw [if_neg h₅] at h
            injection h with h₆
            refine ⟨fm, sf, size, current, rfl, rfl, rfl, rfl, h₅, ?_, ?_⟩
            · rw [← h₆]
            · rw [← h₆]

/-- Claim C7 (amended): a missing `limit` defaults to the configured page
size and a missing `page` to 1; both are parsed as base-10 unsigned
integers by `getUint`, whose failure aborts construction; a resolved page
of 0 aborts construction; and a successful construction has skip offset
(current - 1) * size computed in 64-bit unsigned arithmetic, that is,
reduced modulo 2^64 and then reinterpreted as a signed 64-bit int, and
limit equal to size reinterpreted the same way (the original claim, with
the product taken over the unbounded naturals, is refuted at
page = 4294967297, limit = 4294967296, where the product 2^64 wraps to a
skip of 0). -/
theorem claim_C7_pagination
    (supported : List (String × RKind)) (defaultPageSize : ℕ) (query : QueryParams) :
    (alookup "limit" query = none →
      getUint query "limit" defaultPageSize = .ok defaultPageSize) ∧
    (alookup "page" query = none → getUint query "page" 1 = .ok 1) ∧
    (exceptIsOk (getUint query "limit" defaultPageSize) = false →
      ∀ d, CreateQuery supported defaultPageSize query ≠ .ok d) ∧
    (exceptIsOk (getUint query "page" 1) = false →
      ∀ d, CreateQuery supported defaultPageSize query ≠ .ok d) ∧
    (getUint query "page" 1 = .ok 0 →
      ∀ d, CreateQuery supported defaultPageSize query ≠ .ok d) ∧
    (∀ d, CreateQuery supported defaultPageSize query = .ok d →
      ∃ size current, getUint query "limit" defaultPageSize = .ok size ∧
        getUint query "page" 1 = .ok current ∧ 1 ≤ current ∧
        d.limit = intOfUint64 size ∧
        d.skip = intOfUint64 (mulUint64 (current - 1) size)) := by
  refine ⟨?_, ?_, ?_, ?_, ?_, ?_⟩
  · intro hnone
    unfold getUint
    simp only [hnone]
  · intro hnone
    unfold getUint
    simp only [hnone]
  · intro hbad d hok
    obtain ⟨fm, sf, size, current, _, _, h₃, _, _, _, _⟩ := CreateQuery_ok_elim hok
    rw [h₃] at hbad
    cases hbad
  · intro hbad d hok
    obtain ⟨fm, sf, size, current, _, _, _, h₄, _, _, _⟩ := CreateQuery_ok_elim hok
    rw [h₄] at hbad
    cases hbad
  · intro hzero d hok
    obtain ⟨fm, sf, size, current, _, _, _, h₄, h₅, _, _⟩ := CreateQuery_ok_elim hok
    rw [h₄] at hzero
    injection hzero with h₆
    exact h₅ h₆
  · intro d hok
    obtain ⟨fm, sf, size, current, _, _, h₃, h₄, h₅, h₆, h₇⟩ := CreateQuery_ok_elim hok
    exact ⟨size, current, h₃, h₄, Nat.one_le_iff_ne_zero.mpr h₅, h₆, h₇⟩

/-- Concrete witness for C7: with neither `limit` nor `page` present, the
resolved page size is the default and the resolved page is 1. -/
theorem claim_C7_witness :
    getUint ([] : QueryParams) "limit" 20 = .ok 20 ∧
    getUint ([] : QueryParams) "page" 1 = .ok 1 := by
  have h := claim_C7_pagination exRegistry 20 ([] : QueryParams)
  exact ⟨h.1 rfl, h.2.1 rfl⟩

/-- Counterexample to the unamended C7: at page = 4294967297 and
limit = 4294967296 the 64-bit product (current - 1) * size is 2^32 * 2^32,
which wraps modulo 2^64 to 0, so the constructed query has skip 0 while the
unbounded product (current - 1) * size = 2^64 is nonzero. -/
theorem claim_C7_counterexample :
    CreateQuery exRegistry 20 [("page", ["4294967297"]), ("limit", ["4294967296"])]
      = .ok { filter := [], select := some [], sort := [],
              limit := 4294967296, skip := 0 } ∧
    ((4294967297 - 1) * 4294967296 : ℕ) ≠ 0 := by
  refine ⟨by decide, by decide⟩

/-! ### Claim C8 -/

theorem contains_eq_true_iff_mem (l : List String) (v : String) :
    contains l v = true ↔ v ∈ l := by
  induction l with
  | nil => simp [contains]
  | cons w rest ih =>
    by_cases h : w = v
    · subst h
      simp [contains]
    · simp [contains, h, ih]
      tauto

theorem contains_append_left {acc : List String} {p : String}
    (h : contains acc p = true) (l : List String) : contains (acc ++ l) p = true := by
  rw [contains_eq_true_iff_mem] at h ⊢
  exact List.mem_append_left l h

theorem contains_disabledUnion_mono {acc : List String} {p : String}
    (h : contains acc p = true) (ps : List String) :
    contains (disabledUnion ps acc) p = true := by
  induction ps generalizing acc with
  | nil => exact h
  | cons w rest ih =>
    unfold disabledUnion
    by_cases hw : contains acc w
    · rw [if_pos hw]
      exact ih h
    · rw [if_neg hw]
      exact ih (contains_append_left h [w])

theorem contains_disabledUnion_of_mem {p : String} {ps : List String}
    (hp : p ∈ ps) (acc : List String) :
    contains (disabledUnion ps acc) p = true := by
  induction ps generalizing acc with
  | nil => cases hp
  | cons w rest ih =>
    rcases List.mem_cons.mp hp with heq | hmem
    · subst heq
      unfold disabledUnion
      by_cases hw : contains acc p
      · rw [if_pos hw]
        exact contains_disabledUnion_mono hw rest
      · rw [if_neg hw]
        refine contains_disabledUnion_mono ?_ rest
        rw [contains_eq_true_iff_mem]
        exact List.mem_append_right acc (List.mem_singleton.mpr rfl)
    · unfold disabledUnion
      by_cases hw : contains acc w
      · rw [if_pos hw]
        exact ih hmem acc
      · rw [if_neg hw]
        exact ih hmem (acc ++ [w])

theorem disabledUnion_eq_of_all {ps acc : List String}
    (h : ∀ p ∈ ps, contains acc p = true) : disabledUnion ps acc = acc := by
  induction ps with
  | nil => rfl
  | cons w rest ih =>
    unfold disabledUnion
    rw [if_pos (h w (List.mem_cons_self _ _))]
    exact ih (fun p hp => h p (List.mem_cons_of_mem _ hp))

theorem disabledUnion_idem (ps acc : List String) :
    disabledUnion ps (disabledUnion ps acc) = disabledUnion ps acc :=
  disabledUnion_eq_of_all (fun _p hp => contains_disabledUnion_of_mem hp acc)

/-- A conditional-insert fold never writes a disabled key, so lookups of a
disabled name pass through it. -/
theorem alookup_condFold {disabled : List String} {n : String}
    (hd : contains disabled n = true) :
    ∀ (l : List (String × RKind)) (m : List (String × RKind)),
      alookup n (l.foldl (fun acc kv =>
        if contains disabled kv.1 then acc else ainsert kv.1 kv.2 acc) m) = alookup n m := by
  intro l
  induction l with
  | nil => intro m; rfl
  | cons kv rest ih =>
    intro m
    simp only [List.foldl]
    by_cases hk : contains disabled kv.1
    · rw [if_pos hk]
      exact ih m
    · rw [if_neg hk]
      rw [ih (ainsert kv.1 kv.2 m)]
      refine alookup_ainsert_ne ?_ kv.2 m
      intro he
      rw [he] at hk
      exact hk hd

theorem alookup_addMeta_of_disabled {disabled : List String} {n : String}
    (hd : contains disabled n = true) (m : List (String × RKind)) :
    alookup n (addMeta disabled m) = alookup n m := by
  unfold addMeta
  exact alookup_condFold hd validMetaParameters m

/-- The introspection loop never writes a disabled name. -/
theorem alookup_cvpmFields_of_disabled {oracle : List String → List String}
    {disabled : List String} {n : String} (hd : contains disabled n = true) :
    ∀ (fs : GoFields) (acc : List (String × RKind)), alookup n acc = none →
      alookup n (cvpmFields oracle disabled fs acc) = none := by
  intro fs
  induction fs with
  | nil =>
    intro acc h
    exact h
  | consScalar name tag k rest ih =>
    intro acc h
    unfold cvpmFields
    apply ih
    by_cases hf : contains disabled (fieldNameOf oracle name tag)
    · rw [if_pos hf]
      exact h
    · rw [if_neg hf]
      rw [alookup_ainsert_ne ?_ k acc]
      · exact h
      · intro he
        rw [he] at hf
        exact hf hd
  | consSlice name tag ek rest ih =>
    intro acc h
    unfold cvpmFields
    apply ih
    by_cases hf : contains disabled (fieldNameOf oracle name tag)
    · rw [if_pos hf]
      exact h
    · rw [if_neg hf]
      rw [alookup_ainsert_ne ?_ ek acc]
      · exact h
      · intro he
        rw [he] at hf
        exact hf hd
  | consStruct name tag sub rest ihsub ihrest =>
    intro acc h
    unfold cvpmFields
    apply ihrest
    have hsub : alookup n (addMeta disabled (cvpmFields oracle disabled sub [])) = none := by
      rw [alookup_addMeta_of_disabled hd]
      exact ihsub [] rfl
    rw [alookup_aunion_of_none _ hsub]
    exact h

/-- `createValidParametersMap` omits every disabled name. -/
theorem alookup_cvpm_of_disabled {oracle : List String → List String}
    {disabled : List String} {n : String} (hd : contains disabled n = true)
    (fs : GoFields) :
    alookup n (createValidParametersMap oracle fs disabled) = none := by
  unfold createValidParametersMap
  rw [alookup_addMeta_of_disabled hd]
  exact alookup_cvpmFields_of_disabled hd fs [] rfl

/-- Invariants of every reachable registry state: the override table has
distinct keys, every override is live in the supported map, and disabled
names outside the override table are absent. -/
theorem reach_invariant {schema : GoFields} {st : MQState} (h : Reach schema st) :
    NodupKeys st.additionalSupportedParamters ∧
    (∀ n k, alookup n st.additionalSupportedParamters = some k →
      alookup n st.supportedParameters = some k) ∧
    (∀ n, contains st.disabledParameters n = true →
      alookup n st.additionalSupportedParamters = none →
      alookup n st.supportedParameters = none) := by
  induction h with
  | init oracle =>
    refine ⟨by simp [NewMongoQuery, NodupKeys, akeys], ?_, ?_⟩
    · intro n k hk
      simp [NewMongoQuery, alookup] at hk
    · intro n hd _
      simp [NewMongoQuery, contains] at hd
  | disable oracle ps mq hmq ih =>
    obtain ⟨hnd, hinv1, hinv2⟩ := ih
    refine ⟨hnd, ?_, ?_⟩
    · intro n k hk
      exact alookup_aunion_of_some _ hnd hk
    · intro n hd hnone
      simp only [DisableParameters] at hd hnone ⊢
      rw [alookup_aunion_of_none _ hnone]
      exact alookup_cvpm_of_disabled hd _
  | addov name value mq hmq ih =>
    obtain ⟨hnd, hinv1, hinv2⟩ := ih
    refine ⟨nodupKeys_ainsert _ _ hnd, ?_, ?_⟩
    · intro n k hk
      exact alookup_aunion_of_some _ (nodupKeys_ainsert _ _ hnd) hk
    · intro n hd hnone
      simp only [AddOrOverwriteValidParameter] at hd hnone ⊢
      have hne : ¬ name = n := by
        intro he
        rw [he, alookup_ainsert_self] at hnone
        cases hnone
      have hnone₂ : alookup n mq.additionalSupportedParamters = none := by
        rw [alookup_ainsert_ne hne] at hnone
        exact hnone
      rw [alookup_aunion_of_none _ hnone]
      exact hinv2 n hd hnone₂

/-- Claim C8: in every reachable registry state, each override recorded in
the table is present in the supported map with its recorded kind (so a
disable never removes an override, and re-adding a disabled name restores
it); no disabled name outside the override table is supported; and both
operations are idempotent (a repeated disable rebuilds with the same
enumeration oracle). -/
theorem claim_C8_registry_invariants (schema : GoFields) (st : MQState)
    (h : Reach schema st) :
    (∀ n k, alookup n st.additionalSupportedParamters = some k →
      alookup n st.supportedParameters = some k) ∧
    (∀ n, contains st.disabledParameters n = true →
      alookup n st.additionalSupportedParamters = none →
      alookup n st.supportedParameters = none) ∧
    (∀ oracle ps, DisableParameters oracle ps (DisableParameters oracle ps st)
      = DisableParameters oracle ps st) ∧
    (∀ name value, AddOrOverwriteValidParameter name value
      (AddOrOverwriteValidParameter name value st)
      = AddOrOverwriteValidParameter name value st) := by
  obtain ⟨hnd, hinv1, hinv2⟩ := reach_invariant h
  refine ⟨hinv1, hinv2, ?_, ?_⟩
  · intro oracle ps
    simp only [DisableParameters]
    rw [disabledUnion_idem]
  · intro name value
    simp only [AddOrOverwriteValidParameter]
    rw [ainsert_idem]
    have hsub : ∀ p ∈ ainsert name value st.additionalSupportedParamters,
        alookup p.1 (aunion (ainsert name value st.additionalSupportedParamters)
          st.supportedParameters) = some p.2 := by
      rintro ⟨k, v⟩ hp
      refine alookup_aunion_of_some _ (nodupKeys_ainsert _ _ hnd) ?_
      exact alookup_of_mem_nodup hp (nodupKeys_ainsert _ _ hnd)
    rw [aunion_eq_of_lookup hsub]

/-- Concrete witness for C8: disable `fullname`, then override it back as
a string parameter; the supported map serves the override. -/
theorem claim_C8_witness :
    alookup "fullname" (AddOrOverwriteValidParameter "fullname" .string
      (DisableParameters idOracle ["fullname"]
        (NewMongoQuery idOracle exSchemaPlain))).supportedParameters
      = some RKind.string := by
  have h := claim_C8_registry_invariants exSchemaPlain _
    (Reach.addov "fullname" .string _
      (Reach.disable idOracle ["fullname"] _ (Reach.init idOracle)))
  exact h.1 "fullname" .string (by decide)

/-! ### Claim C9 -/

/-- An admissible enumeration is forced on carriers of at most one
element. -/
theorem admissible_fix {oracle : List String → List String} (ho : Admissible oracle)
    {l : List String} (hl : l.length ≤ 1) : oracle l = l := by
  have hperm := ho l
  cases l with
  | nil => exact hperm.eq_nil
  | cons a t =>
    cases t with
    | nil => exact List.perm_singleton.mp hperm
    | cons b t₂ => simp at hl

/-- On an unambiguous tag, every admissible enumeration yields the name
the first-occurrence enumeration yields. -/
theorem getFieldNameFromTag_admissible {oracle : List String → List String}
    (ho : Admissible oracle) {tag : String} (ht : tagUnambiguous tag = true) :
    getFieldNameFromTag oracle tag = getFieldNameFromTag idOracle tag := by
  have ht₂ := ht
  unfold tagUnambiguous at ht₂
  rw [Bool.and_eq_true, decide_eq_true_eq, decide_eq_true_eq] at ht₂
  unfold getFieldNameFromTag
  simp only [admissible_fix ho ht₂.1, admissible_fix ho ht₂.2, idOracle]

theorem fieldNameOf_admissible {oracle : List String → List String}
    (ho : Admissible oracle) {tag : String} (ht : tagUnambiguous tag = true)
    (name : String) : fieldNameOf oracle name tag = fieldNameOf idOracle name tag := by
  unfold fieldNameOf
  rw [getFieldNameFromTag_admissible ho ht]

theorem cvpmFields_admissible {oracle : List String → List String}
    (ho : Admissible oracle) (disabled : List String) :
    ∀ fs : GoFields, unambiguousFields fs = true →
      ∀ acc, cvpmFields oracle disabled fs acc = cvpmFields idOracle disabled fs acc := by
  intro fs
  induction fs with
  | nil =>
    intro _ acc
    rfl
  | consScalar name tag k rest ih =>
    intro h acc
    rw [unambiguousFields, Bool.and_eq_true] at h
    unfold cvpmFields
    rw [fieldNameOf_admissible ho h.1 name]
    exact ih h.2 _
  | consSlice name tag ek rest ih =>
    intro h acc
    rw [unambiguousFields, Bool.and_eq_true] at h
    unfold cvpmFields
    rw [fieldNameOf_admissible ho h.1 name]
    exact ih h.2 _
  | consStruct name tag sub rest ihsub ihrest =>
    intro h acc
    rw [unambiguousFields, Bool.and_eq_true] at h
    unfold cvpmFields
    rw [ihsub h.1 []]
    exact ihrest h.2 _

/-- Claim C9 (amended): `createValidParametersMap` is a pure function of
(schema, disabled set, hash enumeration).  When every field tag is
unambiguous — its set difference against the exclusion set keeps at most
one token — the result is independent of the enumeration, and the chosen
override is the one the first-occurrence order yields, i.e. the first
remaining token.  (With two or more surviving tokens the enumeration
leaks into the result; see the counterexample.) -/
theorem claim_C9_deterministic_when_unambiguous
    (oracle₁ oracle₂ : List String → List String)
    (h₁ : Admissible oracle₁) (h₂ : Admissible oracle₂)
    (fs : GoFields) (disabled : List String)
    (hu : unambiguousFields fs = true) :
    createValidParametersMap oracle₁ fs disabled
      = createValidParametersMap oracle₂ fs disabled ∧
    (∀ tag, tagUnambiguous tag = true →
      getFieldNameFromTag oracle₁ tag = getFieldNameFromTag idOracle tag) := by
  constructor
  · unfold createValidParametersMap
    rw [cvpmFields_admissible h₁ disabled fs hu, cvpmFields_admissible h₂ disabled fs hu]
  · intro tag ht
    exact getFieldNameFromTag_admissible h₁ ht

/-- Counterexample to C9 as stated: the identity and the reversed
enumerations are both admissible hash-set orders, yet on the single field
tagged `bson:"a,b"` (two tokens survive the exclusion set) they produce
different parameter maps — the override is an arbitrary element of the set
difference, not always the first remaining token, and two evaluations on
the same inputs can disagree. -/
theorem claim_C9_counterexample :
    Admissible idOracle ∧ Admissible revOracle ∧
    alookup "a" (createValidParametersMap idOracle exSchemaAmbig []) = some .string ∧
    alookup "a" (createValidParametersMap revOracle exSchemaAmbig []) = none ∧
    createValidParametersMap idOracle exSchemaAmbig []
      ≠ createValidParametersMap revOracle exSchemaAmbig [] := by
  refine ⟨fun l => List.Perm.refl l, fun l => List.reverse_perm l,
    by decide, by decide, by decide⟩

/-- Concrete witness for C9 (amended): on a schema with unambiguous tags
the identity and the reversed enumerations produce the same map. -/
theorem claim_C9_witness :
    createValidParametersMap idOracle exSchemaPlain []
      = createValidParametersMap revOracle exSchemaPlain [] :=
  (claim_C9_deterministic_when_unambiguous idOracle revOracle
    (fun l => List.Perm.refl l) (fun l => List.reverse_perm l)
    exSchemaPlain [] (by decide)).1

/-! ### Claim C10: rounding lemmas -/

theorem roundHalfEvenZ_intCast (n : ℤ) : roundHalfEvenZ (n : ℚ) = n := by
  unfold roundHalfEvenZ
  rw [Int.floor_intCast]
  norm_num

theorem floor_le_roundHalfEvenZ (q : ℚ) : ⌊q⌋ ≤ roundHalfEvenZ q := by
  unfold roundHalfEvenZ
  split_ifs <;> omega

theorem roundHalfEvenZ_le_ceil (q : ℚ) : roundHalfEvenZ q ≤ ⌈q⌉ := by
  have hfc := Int.floor_le_ceil q
  have hfl := Int.floor_le q
  unfold roundHalfEvenZ
  split_ifs with h1 h2 h3
  · exact hfc
  · rw [Int.add_one_le_iff, Int.lt_ceil]
    linarith
  · exact hfc
  · rw [Int.add_one_le_iff, Int.lt_ceil]
    have h4 : q - (⌊q⌋ : ℚ) = 1/2 := le_antisymm (not_lt.mp h2) (not_lt.mp h1)
    linarith

theorem abs_roundHalfEvenZ_sub_le (q : ℚ) : |((roundHalfEvenZ q : ℤ) : ℚ) - q| ≤ 1/2 := by
  have hfl := Int.floor_le q
  have hlt := Int.lt_floor_add_one q
  unfold roundHalfEvenZ
  split_ifs with h1 h2 h3
  all_goals rw [abs_le]
  all_goals constructor
  all_goals push_cast
  all_goals linarith

theorem roundHalfEvenZ_add_half_even {n : ℤ} (hn : Even n) :
    roundHalfEvenZ ((n : ℚ) + 1/2) = n := by
  have hfl : ⌊(n : ℚ) + 1/2⌋ = n := by
    rw [Int.floor_eq_iff]
    constructor
    · norm_num
    · norm_num
  unfold roundHalfEvenZ
  rw [hfl]
  rw [if_neg (by norm_num), if_neg (by norm_num), if_pos hn]

theorem two_zpow_pos (x : ℤ) : (0:ℚ) < (2:ℚ) ^ x := by positivity

theorem two_zpow_mul (x y : ℤ) : (2:ℚ) ^ x * (2:ℚ) ^ y = (2:ℚ) ^ (x + y) :=
  (zpow_add₀ (by norm_num : (2:ℚ) ≠ 0) x y).symm

theorem two_zpow_log_le {q : ℚ} (hq : 0 < q) : (2:ℚ) ^ Int.log 2 q ≤ q := by
  have h := Int.zpow_log_le_self (b := 2) (r := q) (by norm_num) hq
  push_cast at h
  exact h

theorem lt_two_zpow_log_succ (q : ℚ) : q < (2:ℚ) ^ (Int.log 2 q + 1) := by
  have h := Int.lt_zpow_succ_log_self (b := 2) (by norm_num) q
  push_cast at h
  exact h

theorem roundF64Pos_y_lb {q : ℚ} (hq : 0 < q) :
    (2:ℚ) ^ (52:ℤ) ≤ q * (2:ℚ) ^ ((52:ℤ) - Int.log 2 q) := by
  calc (2:ℚ) ^ (52:ℤ)
      = (2:ℚ) ^ (Int.log 2 q + ((52:ℤ) - Int.log 2 q)) := by
        rw [show Int.log 2 q + ((52:ℤ) - Int.log 2 q) = (52:ℤ) from by ring]
    _ = (2:ℚ) ^ Int.log 2 q * (2:ℚ) ^ ((52:ℤ) - Int.log 2 q) := (two_zpow_mul _ _).symm
    _ ≤ q * (2:ℚ) ^ ((52:ℤ) - Int.log 2 q) :=
        mul_le_mul_of_nonneg_right (two_zpow_log_le hq) (two_zpow_pos _).le

theorem roundF64Pos_lower {q : ℚ} (hq : 0 < q) :
    (2:ℚ) ^ Int.log 2 q ≤ roundF64Pos q := by
  have hfl : (2 ^ 52 : ℤ) ≤ ⌊q * (2:ℚ) ^ ((52:ℤ) - Int.log 2 q)⌋ := by
    rw [Int.le_floor]
    refine le_trans (le_of_eq ?_) (roundF64Pos_y_lb hq)
    norm_num
  have hrhe : (2 ^ 52 : ℤ) ≤ roundHalfEvenZ (q * (2:ℚ) ^ ((52:ℤ) - Int.log 2 q)) :=
    le_trans hfl (floor_le_roundHalfEvenZ _)
  unfold roundF64Pos
  calc (2:ℚ) ^ Int.log 2 q
      = (2:ℚ) ^ (52:ℤ) * (2:ℚ) ^ (Int.log 2 q - 52) := by
        rw [two_zpow_mul, show (52:ℤ) + (Int.log 2 q - 52) = Int.log 2 q from by ring]
    _ ≤ ((roundHalfEvenZ (q * (2:ℚ) ^ ((52:ℤ) - Int.log 2 q)) : ℤ) : ℚ)
          * (2:ℚ) ^ (Int.log 2 q - 52) := by
        refine mul_le_mul_of_nonneg_right ?_ (two_zpow_pos _).le
        calc (2:ℚ) ^ (52:ℤ) = ((2 ^ 52 : ℤ) : ℚ) := by norm_num
          _ ≤ _ := Int.cast_le.mpr hrhe

theorem roundF64Pos_pos {q : ℚ} (hq : 0 < q) : 0 < roundF64Pos q :=
  lt_of_lt_of_le (two_zpow_pos _) (roundF64Pos_lower hq)

theorem roundF64Pos_le_intCast {q : ℚ} {c : ℤ} (_hq : 0 < q) (hqc : q ≤ (c : ℚ))
    (he : Int.log 2 q ≤ 52) : roundF64Pos q ≤ (c : ℚ) := by
  unfold roundF64Pos
  set e := Int.log 2 q with hedef
  have hk : ((52:ℤ) - e) = (((52 - e).toNat : ℕ) : ℤ) := (Int.toNat_of_nonneg (by omega)).symm
  have hpow_eq : (2:ℚ) ^ ((52:ℤ) - e) = (2:ℚ) ^ ((52 - e).toNat : ℕ) := by
    conv_lhs => rw [hk]
    rw [zpow_natCast]
  have hy : q * (2:ℚ) ^ ((52:ℤ) - e) ≤ ((c * 2 ^ ((52 - e).toNat) : ℤ) : ℚ) := by
    push_cast
    rw [hpow_eq]
    exact mul_le_mul_of_nonneg_right hqc (by positivity)
  have hceil : roundHalfEvenZ (q * (2:ℚ) ^ ((52:ℤ) - e)) ≤ c * 2 ^ ((52 - e).toNat) := by
    refine le_trans (roundHalfEvenZ_le_ceil _) ?_
    rw [show (c * 2 ^ ((52 - e).toNat) : ℤ)
        = ⌈((c * 2 ^ ((52 - e).toNat) : ℤ) : ℚ)⌉ from (Int.ceil_intCast _).symm]
    exact Int.ceil_mono hy
  calc ((roundHalfEvenZ (q * (2:ℚ) ^ ((52:ℤ) - e)) : ℤ) : ℚ) * (2:ℚ) ^ (e - 52)
      ≤ ((c * 2 ^ ((52 - e).toNat) : ℤ) : ℚ) * (2:ℚ) ^ (e - 52) :=
        mul_le_mul_of_nonneg_right (Int.cast_le.mpr hceil) (two_zpow_pos _).le
    _ = (c : ℚ) := by
        push_cast
        rw [← zpow_natCast (2:ℚ) ((52 - e).toNat), ← hk, mul_assoc, two_zpow_mul,
          show ((52:ℤ) - e) + (e - 52) = 0 from by ring, zpow_zero, mul_one]

theorem roundF64Pos_err {q : ℚ} (_hq : 0 < q) :
    |roundF64Pos q - q| ≤ (2:ℚ) ^ (Int.log 2 q - 53) := by
  unfold roundF64Pos
  set e := Int.log 2 q with hedef
  have hqy : q = (q * (2:ℚ) ^ ((52:ℤ) - e)) * (2:ℚ) ^ (e - 52) := by
    rw [mul_assoc, two_zpow_mul, show ((52:ℤ) - e) + (e - 52) = 0 from by ring,
      zpow_zero, mul_one]
  rw [show ((roundHalfEvenZ (q * (2:ℚ) ^ ((52:ℤ) - e)) : ℤ) : ℚ) * (2:ℚ) ^ (e - 52) - q
      = (((roundHalfEvenZ (q * (2:ℚ) ^ ((52:ℤ) - e)) : ℤ) : ℚ)
          - q * (2:ℚ) ^ ((52:ℤ) - e)) * (2:ℚ) ^ (e - 52) from by
    rw [sub_mul]
    rw [← hqy]]
  rw [abs_mul, abs_of_pos (two_zpow_pos (e - 52))]
  calc |((roundHalfEvenZ (q * (2:ℚ) ^ ((52:ℤ) - e)) : ℤ) : ℚ) - q * (2:ℚ) ^ ((52:ℤ) - e)|
        * (2:ℚ) ^ (e - 52)
      ≤ (1/2) * (2:ℚ) ^ (e - 52) :=
        mul_le_mul_of_nonneg_right (abs_roundHalfEvenZ_sub_le _) (two_zpow_pos _).le
    _ = (2:ℚ) ^ (e - 53) := by
        rw [show (1:ℚ)/2 = (2:ℚ) ^ (-1 : ℤ) from by norm_num, two_zpow_mul,
          show (-1 : ℤ) + (e - 52) = e - 53 from by ring]

theorem roundF64Pos_intCast {n : ℤ} (h1 : 1 ≤ n) (h53 : n ≤ 2 ^ 53) :
    roundF64Pos (n : ℚ) = (n : ℚ) := by
  have hq : (0:ℚ) < (n:ℚ) := by exact_mod_cast h1
  have he0 : 0 ≤ Int.log 2 (n:ℚ) := by
    refine (Int.zpow_le_iff_le_log (b := 2) (x := 0) (by norm_num) hq).mp ?_
    push_cast
    rw [zpow_zero]
    exact_mod_cast h1
  have he53 : Int.log 2 (n:ℚ) ≤ 53 := by
    have hlt : (n:ℚ) < ((2:ℕ):ℚ) ^ (54:ℤ) := by
      push_cast
      calc (n:ℚ) ≤ ((2 ^ 53 : ℤ) : ℚ) := by exact_mod_cast h53
        _ < 2 ^ (54:ℤ) := by norm_num
    have := (Int.lt_zpow_iff_log_lt (b := 2) (x := 54) (by norm_num) hq).mp hlt
    omega
  unfold roundF64Pos
  set e := Int.log 2 (n:ℚ) with hedef
  by_cases hcase : e ≤ 52
  · have hk : ((52:ℤ) - e) = (((52 - e).toNat : ℕ) : ℤ) := (Int.toNat_of_nonneg (by omega)).symm
    have hyint : (n:ℚ) * (2:ℚ) ^ ((52:ℤ) - e) = ((n * 2 ^ ((52 - e).toNat) : ℤ) : ℚ) := by
      push_cast
      conv_lhs => rw [hk]
      rw [zpow_natCast]
    rw [hyint, roundHalfEvenZ_intCast]
    push_cast
    rw [← zpow_natCast (2:ℚ) ((52 - e).toNat), ← hk, mul_assoc, two_zpow_mul,
      show ((52:ℤ) - e) + (e - 52) = 0 from by ring, zpow_zero, mul_one]
  · have he : e = 53 := by omega
    have hn : (n:ℚ) = (2:ℚ) ^ (53:ℤ) := by
      refine le_antisymm ?_ ?_
      · calc (n:ℚ) ≤ ((2 ^ 53 : ℤ) : ℚ) := by exact_mod_cast h53
          _ = (2:ℚ) ^ (53:ℤ) := by norm_num
      · calc (2:ℚ) ^ (53:ℤ) = (2:ℚ) ^ e := by rw [he]
          _ ≤ (n:ℚ) := two_zpow_log_le hq
    rw [he, hn]
    have hy : (2:ℚ) ^ (53:ℤ) * (2:ℚ) ^ ((52:ℤ) - 53) = ((2 ^ 52 : ℤ) : ℚ) := by
      rw [two_zpow_mul]
      norm_num
    rw [hy, roundHalfEvenZ_intCast]
    norm_num

theorem roundF64_of_pos {q : ℚ} (hq : 0 < q) : roundF64 q = roundF64Pos q := by
  unfold roundF64
  rw [if_neg (by linarith), if_neg hq.ne.symm]

theorem goFloatOfNat_eq_self {n : ℕ} (h : n ≤ 2 ^ 53) : goFloatOfNat n = (n : ℚ) := by
  cases Nat.eq_zero_or_pos n with
  | inl h0 =>
    subst h0
    simp [goFloatOfNat, roundF64]
  | inr hpos =>
    unfold goFloatOfNat
    rw [roundF64_of_pos (by exact_mod_cast hpos)]
    have h2 := roundF64Pos_intCast (n := (n:ℤ)) (by exact_mod_cast hpos) (by exact_mod_cast h)
    push_cast at h2
    exact h2

theorem goFloatOfNat_pos {n : ℕ} (h : 0 < n) : 0 < goFloatOfNat n := by
  unfold goFloatOfNat
  rw [roundF64_of_pos (by exact_mod_cast h)]
  exact roundF64Pos_pos (by exact_mod_cast h)

theorem goFloatOfNat_large {n : ℕ} (h : 2 ^ 53 ≤ n) : (2:ℚ) ^ (53:ℤ) ≤ goFloatOfNat n := by
  have hpos : (0:ℚ) < (n:ℚ) := by
    have h2 : (0:ℕ) < n := lt_of_lt_of_le (by norm_num) h
    exact_mod_cast h2
  have he : (53:ℤ) ≤ Int.log 2 (n:ℚ) := by
    refine (Int.zpow_le_iff_le_log (b := 2) (x := 53) (by norm_num) hpos).mp ?_
    push_cast
    calc (2:ℚ) ^ (53:ℤ) = ((2 ^ 53 : ℕ) : ℚ) := by norm_num
      _ ≤ (n:ℚ) := by exact_mod_cast h
  unfold goFloatOfNat
  rw [roundF64_of_pos hpos]
  calc (2:ℚ) ^ (53:ℤ) ≤ (2:ℚ) ^ Int.log 2 (n:ℚ) :=
        zpow_le_zpow_right₀ (by norm_num) he
    _ ≤ roundF64Pos (n:ℚ) := roundF64Pos_lower hpos

theorem lt_div_succ_mul_nat (a b : ℕ) (hb : 0 < b) : a < (a / b + 1) * b := by
  have h1 := Nat.div_add_mod a b
  have h2 := Nat.mod_lt a hb
  have h3 : (a / b + 1) * b = b * (a / b) + b := by ring
  omega

theorem ceilDivNat_zero {b : ℕ} (hb : 0 < b) : ceilDivNat 0 b = 0 := by
  unfold ceilDivNat
  exact Nat.div_eq_of_lt (by omega)

theorem ceilDivNat_of_dvd {a b : ℕ} (hb : 0 < b) (h : b ∣ a) : ceilDivNat a b = a / b := by
  obtain ⟨k, rfl⟩ := h
  unfold ceilDivNat
  have h1 : b * k + b - 1 = b * k + (b - 1) := by omega
  rw [h1, Nat.mul_add_div hb, Nat.div_eq_of_lt (by omega), Nat.add_zero,
    Nat.mul_div_cancel_left k hb]

theorem ceilDivNat_of_not_dvd {a b : ℕ} (hb : 0 < b) (h : ¬ b ∣ a) :
    ceilDivNat a b = a / b + 1 := by
  have hmod : a % b ≠ 0 := fun hc => h (Nat.dvd_of_mod_eq_zero hc)
  have hdm := Nat.div_add_mod a b
  have hml := Nat.mod_lt a hb
  unfold ceilDivNat
  have h1 : a + b - 1 = b * (a / b) + (a % b + b - 1) := by omega
  rw [h1, Nat.mul_add_div hb]
  have h2 : (a % b + b - 1) / b = 1 := by
    apply Nat.div_eq_of_lt_le
    · omega
    · omega
  rw [h2]

theorem floor_natCast_div {a b : ℕ} (hb : 0 < b) :
    ⌊(a:ℚ) / (b:ℚ)⌋ = ((a / b : ℕ) : ℤ) := by
  have hbq : (0:ℚ) < (b:ℚ) := by exact_mod_cast hb
  rw [Int.floor_eq_iff]
  constructor
  · rw [le_div_iff₀ hbq]
    have h1 : (a / b) * b ≤ a := Nat.div_mul_le_self a b
    push_cast
    exact_mod_cast h1
  · rw [div_lt_iff₀ hbq]
    have h2 : a < (a / b + 1) * b := lt_div_succ_mul_nat a b hb
    push_cast
    exact_mod_cast h2

theorem div_sub_floor {a b : ℕ} (hb : 0 < b) :
    (a:ℚ) / (b:ℚ) - ((a / b : ℕ) : ℚ) = ((a % b : ℕ) : ℚ) / (b:ℚ) := by
  have hbq : (0:ℚ) < (b:ℚ) := by exact_mod_cast hb
  have hdm : (a:ℚ) = (b:ℚ) * ((a / b : ℕ) : ℚ) + ((a % b : ℕ) : ℚ) := by
    exact_mod_cast (Nat.div_add_mod a b).symm
  rw [eq_div_iff hbq.ne.symm, sub_mul, div_mul_cancel₀ _ hbq.ne.symm]
  linarith [hdm]

/-- Core of claim C10: for items at most 2^53 and a positive size, the
float64 ceiling of the rounded quotient is the exact integer ceiling. -/
theorem goDivF_ceil {a b : ℕ} (ha : a ≤ 2 ^ 53) (hb : 0 < b) :
    Int.ceil (goDivF (goFloatOfNat a) (goFloatOfNat b)) = ((ceilDivNat a b : ℕ) : ℤ) := by
  have hA : goFloatOfNat a = (a:ℚ) := goFloatOfNat_eq_self ha
  rcases Nat.eq_zero_or_pos a with ha0 | hapos
  · subst ha0
    rw [hA]
    unfold goDivF
    rw [show ((0:ℕ):ℚ) = 0 from rfl, zero_div, show roundF64 0 = 0 from by simp [roundF64],
      ceilDivNat_zero hb]
    simp
  by_cases hab : b ≤ a
  · -- b is at most a, hence exactly representable
    have hB : goFloatOfNat b = (b:ℚ) := goFloatOfNat_eq_self (le_trans hab ha)
    rw [hA, hB]
    unfold goDivF
    have hbq : (0:ℚ) < (b:ℚ) := by exact_mod_cast hb
    have hxpos : 0 < (a:ℚ) / (b:ℚ) := div_pos (by exact_mod_cast hapos) hbq
    rw [roundF64_of_pos hxpos]
    by_cases hdvd : b ∣ a
    · obtain ⟨k, hk⟩ := hdvd
      have hdiv : a / b = k := by
        rw [hk]
        exact Nat.mul_div_cancel_left k hb
      have hx : (a:ℚ) / (b:ℚ) = ((k : ℕ) : ℚ) := by
        rw [hk]
        push_cast
        rw [mul_comm]
        exact mul_div_cancel_right₀ _ hbq.ne.symm
      have hk1 : 1 ≤ k := by
        rcases Nat.eq_zero_or_pos k with hk0 | hk1
        · subst hk0
          omega
        · exact hk1
      have hk53 : k ≤ 2 ^ 53 := by
        have h5 : k ≤ b * k := Nat.le_mul_of_pos_left k hb
        omega
      have hrf : roundF64Pos ((a:ℚ) / (b:ℚ)) = (a:ℚ) / (b:ℚ) := by
        rw [hx]
        have h2 := roundF64Pos_intCast (n := (k:ℤ)) (by exact_mod_cast hk1) (by exact_mod_cast hk53)
        push_cast at h2 ⊢
        exact h2
      rw [hrf, hx, Int.ceil_natCast, ceilDivNat_of_dvd hb ⟨k, hk⟩, hdiv]
    · -- size does not divide; here b is at least 2
      have hb2 : 2 ≤ b := by
        rcases Nat.lt_or_ge b 2 with hblt | hbge
        · exfalso
          have hb1 : b = 1 := by omega
          exact hdvd (hb1 ▸ one_dvd a)
        · exact hbge
      have hfl : ⌊(a:ℚ) / (b:ℚ)⌋ = ((a / b : ℕ) : ℤ) := floor_natCast_div hb
      have hcd : ceilDivNat a b = a / b + 1 := ceilDivNat_of_not_dvd hb hdvd
      have hxc : (a:ℚ) / (b:ℚ) ≤ ((a / b + 1 : ℕ) : ℚ) := by
        rw [div_le_iff₀ hbq]
        have h2 : a ≤ (a / b + 1) * b := le_of_lt (lt_div_succ_mul_nat a b hb)
        exact_mod_cast h2
      have hx2 : (a:ℚ) / (b:ℚ) < (2:ℚ) ^ (53:ℤ) := by
        have hxa : (a:ℚ) / (b:ℚ) ≤ (a:ℚ) / 2 := by
          rw [div_le_div_iff₀ hbq (by norm_num)]
          have h3 : (a:ℚ) * 2 ≤ (a:ℚ) * (b:ℚ) := by
            refine mul_le_mul_of_nonneg_left ?_ (by positivity)
            exact_mod_cast hb2
          linarith
        have ha2 : (a:ℚ) / 2 ≤ (2:ℚ) ^ (52:ℤ) := by
          rw [div_le_iff₀ (by norm_num : (0:ℚ) < 2)]
          calc (a:ℚ) ≤ ((2 ^ 53 : ℕ) : ℚ) := by exact_mod_cast ha
            _ = (2:ℚ) ^ (52:ℤ) * 2 := by norm_num
        calc (a:ℚ) / (b:ℚ) ≤ (a:ℚ) / 2 := hxa
          _ ≤ (2:ℚ) ^ (52:ℤ) := ha2
          _ < (2:ℚ) ^ (53:ℤ) := by norm_num
      have he52 : Int.log 2 ((a:ℚ) / (b:ℚ)) ≤ 52 := by
        have hlt : (a:ℚ) / (b:ℚ) < ((2:ℕ):ℚ) ^ (53:ℤ) := by
          push_cast
          exact hx2
        have h3 := (Int.lt_zpow_iff_log_lt (b := 2) (x := 53) (by norm_num) hxpos).mp hlt
        omega
      have hx1 : (1:ℚ) ≤ (a:ℚ) / (b:ℚ) := by
        rw [le_div_iff₀ hbq, one_mul]
        exact_mod_cast hab
      have he0 : 0 ≤ Int.log 2 ((a:ℚ) / (b:ℚ)) := by
        refine (Int.zpow_le_iff_le_log (b := 2) (x := 0) (by norm_num) hxpos).mp ?_
        push_cast
        rw [zpow_zero]
        exact hx1
      have hup : roundF64Pos ((a:ℚ) / (b:ℚ)) ≤ ((a / b + 1 : ℕ) : ℚ) := by
        have h4 := roundF64Pos_le_intCast (c := ((a / b + 1 : ℕ) : ℤ)) hxpos
          (by exact_mod_cast hxc) he52
        exact_mod_cast h4
      have hab53 : (a:ℚ) ≤ (2:ℚ) ^ (53:ℤ) := by
        calc (a:ℚ) ≤ ((2 ^ 53 : ℕ) : ℚ) := by exact_mod_cast ha
          _ = (2:ℚ) ^ (53:ℤ) := by norm_num
      have hle : (b:ℚ) * (2:ℚ) ^ Int.log 2 ((a:ℚ) / (b:ℚ)) ≤ (a:ℚ) := by
        have h4 : (2:ℚ) ^ Int.log 2 ((a:ℚ) / (b:ℚ)) ≤ (a:ℚ) / (b:ℚ) :=
          two_zpow_log_le hxpos
        calc (b:ℚ) * (2:ℚ) ^ Int.log 2 ((a:ℚ) / (b:ℚ))
            ≤ (b:ℚ) * ((a:ℚ) / (b:ℚ)) := mul_le_mul_of_nonneg_left h4 hbq.le
          _ = (a:ℚ) := by field_simp
      have hkey : (b:ℚ) * (2:ℚ) ^ Int.log 2 ((a:ℚ) / (b:ℚ)) < (2:ℚ) ^ (53:ℤ) := by
        rcases lt_or_eq_of_le (le_trans hle hab53) with hlt | heq
        · exact hlt
        · exfalso
          have ha53 : (a:ℚ) = (2:ℚ) ^ (53:ℤ) := by
            refine le_antisymm hab53 ?_
            rw [← heq]
            exact hle
          have hdvd2 : b ∣ a := by
            set eL := Int.log 2 ((a:ℚ) / (b:ℚ)) with heL
            have hnat : (a:ℚ) = (b:ℚ) * ((2 ^ eL.toNat : ℕ) : ℚ) := by
              have hcast : ((2 ^ eL.toNat : ℕ) : ℚ) = (2:ℚ) ^ eL := by
                push_cast
                rw [← zpow_natCast (2:ℚ), Int.toNat_of_nonneg he0]
              rw [hcast, ha53]
              exact heq.symm
            have h5 : a = b * 2 ^ eL.toNat := by exact_mod_cast hnat
            exact ⟨_, h5⟩
          exact hdvd hdvd2
      have hfrac : (2:ℚ) ^ (Int.log 2 ((a:ℚ) / (b:ℚ)) - 53) < 1 / (b:ℚ) := by
        have h5 : (2:ℚ) ^ (Int.log 2 ((a:ℚ) / (b:ℚ)) - 53) * (b:ℚ)
            = ((b:ℚ) * (2:ℚ) ^ Int.log 2 ((a:ℚ) / (b:ℚ))) * (2:ℚ) ^ (-53:ℤ) := by
          rw [show Int.log 2 ((a:ℚ) / (b:ℚ)) - 53
              = Int.log 2 ((a:ℚ) / (b:ℚ)) + (-53) from by ring, ← two_zpow_mul]
          ring
        rw [lt_div_iff₀ hbq, h5]
        calc ((b:ℚ) * (2:ℚ) ^ Int.log 2 ((a:ℚ) / (b:ℚ))) * (2:ℚ) ^ (-53:ℤ)
            < (2:ℚ) ^ (53:ℤ) * (2:ℚ) ^ (-53:ℤ) :=
              mul_lt_mul_of_pos_right hkey (two_zpow_pos _)
          _ = 1 := by
              rw [two_zpow_mul]
              norm_num
      have hxlow : ((a / b + 1 : ℕ) : ℚ) - 1 + 1 / (b:ℚ) ≤ (a:ℚ) / (b:ℚ) := by
        have hsub := div_sub_floor (a := a) (b := b) hb
        have hmod1 : (1:ℚ) ≤ ((a % b : ℕ) : ℚ) := by
          have h6 : 1 ≤ a % b :=
            Nat.one_le_iff_ne_zero.mpr (fun hc => hdvd (Nat.dvd_of_mod_eq_zero hc))
          exact_mod_cast h6
        have hge : (1:ℚ) / (b:ℚ) ≤ ((a % b : ℕ) : ℚ) / (b:ℚ) := by gcongr
        have hc1 : ((a / b + 1 : ℕ) : ℚ) - 1 = ((a / b : ℕ) : ℚ) := by
          push_cast
          ring
        rw [hc1]
        linarith [hsub, hge]
      have hlow : ((a / b + 1 : ℕ) : ℚ) - 1 < roundF64Pos ((a:ℚ) / (b:ℚ)) := by
        have herr := roundF64Pos_err hxpos
        have herr2 : (a:ℚ) / (b:ℚ) - (2:ℚ) ^ (Int.log 2 ((a:ℚ) / (b:ℚ)) - 53)
            ≤ roundF64Pos ((a:ℚ) / (b:ℚ)) := by
          have h7 := abs_le.mp herr
          linarith [h7.1]
        linarith [hfrac, hxlow, herr2]
      rw [hcd, Int.ceil_eq_iff]
      constructor
      · push_cast at hlow ⊢
        exact hlow
      · push_cast at hup ⊢
        exact hup
  · -- a is smaller than b: the quotient is in (0, 1] and the ceiling is 1
    push_neg at hab
    rw [hA]
    unfold goDivF
    have hBpos : 0 < goFloatOfNat b := goFloatOfNat_pos hb
    have hBa : (a:ℚ) ≤ goFloatOfNat b := by
      by_cases hble : b ≤ 2 ^ 53
      · rw [goFloatOfNat_eq_self hble]
        exact_mod_cast le_of_lt hab
      · push_neg at hble
        have h6 : (2:ℚ) ^ (53:ℤ) ≤ goFloatOfNat b := goFloatOfNat_large (le_of_lt hble)
        calc (a:ℚ) ≤ ((2 ^ 53 : ℕ) : ℚ) := by exact_mod_cast ha
          _ = (2:ℚ) ^ (53:ℤ) := by norm_num
          _ ≤ goFloatOfNat b := h6
    have hxpos : 0 < (a:ℚ) / goFloatOfNat b := div_pos (by exact_mod_cast hapos) hBpos
    have hx1 : (a:ℚ) / goFloatOfNat b ≤ 1 := by
      rw [div_le_one hBpos]
      exact hBa
    rw [roundF64_of_pos hxpos]
    have he0 : Int.log 2 ((a:ℚ) / goFloatOfNat b) ≤ 0 := by
      have hlt : (a:ℚ) / goFloatOfNat b < ((2:ℕ):ℚ) ^ (1:ℤ) := by
        push_cast
        linarith
      have h7 := (Int.lt_zpow_iff_log_lt (b := 2) (x := 1) (by norm_num) hxpos).mp hlt
      omega
    have hup : roundF64Pos ((a:ℚ) / goFloatOfNat b) ≤ ((1:ℤ):ℚ) :=
      roundF64Pos_le_intCast hxpos (by push_cast; exact hx1) (by omega)
    have hlowpos : 0 < roundF64Pos ((a:ℚ) / goFloatOfNat b) := roundF64Pos_pos hxpos
    have hceil : ⌈roundF64Pos ((a:ℚ) / goFloatOfNat b)⌉ = (1:ℤ) := by
      rw [Int.ceil_eq_iff]
      constructor
      · push_cast
        linarith
      · push_cast at hup ⊢
        exact hup
    rw [hceil]
    have hcd1 : ceilDivNat a b = 1 := by
      unfold ceilDivNat
      apply Nat.div_eq_of_lt_le
      · omega
      · omega
    rw [hcd1]
    rfl

/-- Claim C10 (amended): for every page with size > 0 and a total item
count of at most 2^53, finalizing sets last to exactly the integer ceiling
of items / size.  Beyond 2^53 the float64 conversion can round the count
and lose exactness, as `claim_C10_counterexample` shows. -/
theorem claim_C10_last_page (items size : ℕ) (hitems : items ≤ 2 ^ 53)
    (hsize : 0 < size) : calculateLastPage items size = ceilDivNat items size := by
  unfold calculateLastPage
  rw [goDivF_ceil hitems hsize]
  exact Int.toNat_natCast _

/-- Counterexample to C10 as stated (for all unsigned values): at
items = 2^53 + 1 and size = 1 the conversion to float64 rounds the count
down to 2^53 (round half to even at 53 bits), so the computed last page is
2^53 while the exact ceiling is 2^53 + 1. -/
theorem claim_C10_counterexample :
    calculateLastPage 9007199254740993 1 = 9007199254740992 ∧
    ceilDivNat 9007199254740993 1 = 9007199254740993 := by
  constructor
  · unfold calculateLastPage
    have h1 : goFloatOfNat 1 = 1 := by
      rw [goFloatOfNat_eq_self (by norm_num)]
      norm_num
    have he : Int.log 2 ((9007199254740993:ℕ):ℚ) = 53 := by
      have hn : Nat.log 2 9007199254740993 = 53 :=
        Nat.log_eq_of_pow_le_of_lt_pow (by norm_num) (by norm_num)
      rw [Int.log_natCast, hn]
      rfl
    have hA : goFloatOfNat 9007199254740993 = (2:ℚ) ^ (53:ℕ) := by
      unfold goFloatOfNat
      rw [roundF64_of_pos (by norm_num)]
      unfold roundF64Pos
      rw [he]
      rw [show ((9007199254740993:ℕ):ℚ) * (2:ℚ) ^ ((52:ℤ) - 53) = ((2 ^ 52 : ℤ):ℚ) + 1/2 from by
        norm_num]
      rw [roundHalfEvenZ_add_half_even ⟨2 ^ 51, by norm_num⟩]
      norm_num
    rw [hA, h1]
    unfold goDivF
    rw [div_one]
    have h8 : roundF64 ((2:ℚ) ^ (53:ℕ)) = (2:ℚ) ^ (53:ℕ) := by
      rw [roundF64_of_pos (by positivity)]
      have h9 := roundF64Pos_intCast (n := 2 ^ 53) (by norm_num) (le_refl _)
      push_cast at h9
      exact h9
    rw [h8]
    rw [show (2:ℚ) ^ (53:ℕ) = ((9007199254740992:ℤ):ℚ) from by norm_num]
    rw [Int.ceil_intCast]
    rfl
  · unfold ceilDivNat
    norm_num

/-- Concrete witness for C10 (amended): items = 25, size = 10 gives
last = 3. -/
theorem claim_C10_witness : calculateLastPage 25 10 = 3 := by
  rw [claim_C10_last_page 25 10 (by norm_num) (by norm_num)]
  rfl

end Mqb
